import Mathlib

/-!
Verification of the tink-go spec against a shallow embedding of the sources.

Byte strings are modelled as `List Nat` (each element one byte), errors as
`Except String`, and fallible primitives as Lean functions returning `Except`.
The sections below embed, in order: the deterministic-AEAD multi-key
dispatcher (`daead/daead_factory.go`), the single-key full AES-GCM AEAD
(`aead/aesgcm/aead.go`), the JWT verifier factory
(`jwt/jwt_verifier_factory.go`), the KMS envelope decrypt path, and the
segmented streaming codec.
-/

/-- Byte strings: one `Nat` per byte. -/
abbrev Bytes := List Nat

/-! ## Deterministic AEAD dispatcher (src/unnamed/part_000, package daead) -/

/-- A deterministic AEAD primitive: `EncryptDeterministically` /
`DecryptDeterministically`, both fallible (tink.DeterministicAEAD). -/
structure DAEAD where
  enc : Bytes → Bytes → Except String Bytes
  dec : Bytes → Bytes → Except String Bytes

/-- One entry of a primitive set (primitiveset.Entry): key id, derived output
prefix bytes and the instantiated primitive. The field `keyPrefix` embeds the
Go field `Prefix`. -/
structure PSEntry where
  keyID : Nat
  keyPrefix : Bytes
  primitive : DAEAD

/-- A primitive set for deterministic AEAD (primitiveset.PrimitiveSet):
`entries` is the map from prefix bytes to the ordered entries sharing that
prefix (association list, insertion order = keyset declaration order), and
`primary` the designated primary entry. -/
structure DPrimitiveSet where
  entries : List (Bytes × List PSEntry)
  primary : PSEntry

/-- `cryptofmt.NonRawPrefixSize`: non-raw ciphertext prefixes are 5 bytes
(1 format byte plus 4 big-endian key-id bytes), per spec §4.1. -/
def nonRawPrefixSize : Nat := 5

/-- `PrimitiveSet.EntriesForPrefix`: exact lookup of the ordered entry list
for a prefix; a missing prefix yields no entries (the Go version returns an
error, which the dispatcher treats identically by skipping the loop). -/
def entriesForPrefix (ps : DPrimitiveSet) (p : Bytes) : List PSEntry :=
  match ps.entries.lookup p with
  | some l => l
  | none => []

/-- `PrimitiveSet.RawEntries`: the entries stored under the empty prefix. -/
def rawEntries (ps : DPrimitiveSet) : List PSEntry :=
  entriesForPrefix ps []

/-- The trial loop of `DecryptDeterministically`: try each entry in declared
order on the payload, returning the first successful plaintext. -/
def tryEntries (l : List PSEntry) (payload aad : Bytes) : Option Bytes :=
  match l with
  | [] => none
  | e :: rest =>
    match e.primitive.dec payload aad with
    | Except.ok pt => some pt
    | Except.error _ => tryEntries rest payload aad

/-- The generic exhaustion error of `DecryptDeterministically`. -/
def genericDaeadError : String := "daead_factory: decryption failed"

/-- `wrappedDeterministicAEAD.EncryptDeterministically`: encrypt with the
primary's primitive and prepend the primary's prefix (the Go code returns the
raw ciphertext unchanged when the prefix is empty, which coincides with
`[] ++ ct`). -/
def encryptDeterministically (ps : DPrimitiveSet) (pt aad : Bytes) :
    Except String Bytes :=
  match ps.primary.primitive.enc pt aad with
  | Except.error e => Except.error e
  | Except.ok ct => Except.ok (ps.primary.keyPrefix ++ ct)

/-- `wrappedDeterministicAEAD.DecryptDeterministically`: if the ciphertext is
longer than 5 bytes, try the entries registered under its leading 5 bytes on
the remainder; then try every raw entry on the whole ciphertext; otherwise
fail with the single generic error. -/
def decryptDeterministically (ps : DPrimitiveSet) (ct aad : Bytes) :
    Except String Bytes :=
  let viaPrefix : Option Bytes :=
    if ct.length > nonRawPrefixSize then
      tryEntries (entriesForPrefix ps (ct.take nonRawPrefixSize))
        (ct.drop nonRawPrefixSize) aad
    else none
  match viaPrefix with
  | some pt => Except.ok pt
  | none =>
    match tryEntries (rawEntries ps) ct aad with
    | some pt => Except.ok pt
    | none => Except.error genericDaeadError

/-- The consume operation as worded by the spec (§4.3 steps 1–4): split a
candidate prefix iff the input is strictly longer than 5 bytes, try the
matching entries in declared order on the candidate payload taking the first
success, then try every raw entry in declared order on the original input,
and fail generically otherwise. Stated with `List.findSome?` to keep it
independent of the source's loop phrasing. -/
def consumeSpec (ps : DPrimitiveSet) (ct aad : Bytes) : Except String Bytes :=
  let prefixAttempt : Option Bytes :=
    if ct.length > 5 then
      (entriesForPrefix ps (ct.take 5)).findSome?
        (fun e => (e.primitive.dec (ct.drop 5) aad).toOption)
    else none
  let rawAttempt : Option Bytes :=
    (rawEntries ps).findSome? (fun e => (e.primitive.dec ct aad).toOption)
  match prefixAttempt.orElse (fun _ => rawAttempt) with
  | some pt => Except.ok pt
  | none => Except.error genericDaeadError

/-- All entries of the set, in declaration order of the groups. -/
def allEntries (ps : DPrimitiveSet) : List PSEntry :=
  (ps.entries.map Prod.snd).flatten

/-- A validly built primitive set, per spec §3/§4.2: every entry is stored
under its own prefix, the primary also appears under its own prefix, and the
primary's prefix is 0 or 5 bytes long. -/
def ValidSet (ps : DPrimitiveSet) : Prop :=
  (∀ pl ∈ ps.entries, ∀ e ∈ pl.2, e.keyPrefix = pl.1) ∧
  ps.primary ∈ entriesForPrefix ps ps.primary.keyPrefix ∧
  (ps.primary.keyPrefix.length = 0 ∨ ps.primary.keyPrefix.length = 5)

/-- A primitive correctly inverts its own encryption. -/
def SelfInverting (p : DAEAD) : Prop :=
  ∀ m a c, p.enc m a = Except.ok c → p.dec c a = Except.ok m

theorem tryEntries_eq_findSome? (l : List PSEntry) (payload aad : Bytes) :
    tryEntries l payload aad =
      l.findSome? (fun e => (e.primitive.dec payload aad).toOption) := by
  induction l with
  | nil => rfl
  | cons e rest ih =>
    simp only [tryEntries, List.findSome?]
    cases e.primitive.dec payload aad with
    | ok pt => rfl
    | error _ => simpa [Except.toOption] using ih

theorem tryEntries_eq_none (l : List PSEntry) (payload aad : Bytes)
    (h : ∀ e ∈ l, (e.primitive.dec payload aad).isOk = false) :
    tryEntries l payload aad = none := by
  induction l with
  | nil => rfl
  | cons e rest ih =>
    have he := h e (by simp)
    simp only [tryEntries]
    cases hdec : e.primitive.dec payload aad with
    | ok pt => rw [hdec] at he; simp [Except.isOk, Except.toBool] at he
    | error _ => exact ih (fun e' h' => h e' (by simp [h']))

theorem tryEntries_first_success (l : List PSEntry) (payload aad m : Bytes)
    (p : PSEntry) (hp : p ∈ l) (hok : p.primitive.dec payload aad = Except.ok m)
    (hrest : ∀ e ∈ l, e ≠ p → (e.primitive.dec payload aad).isOk = false) :
    tryEntries l payload aad = some m := by
  induction l with
  | nil => simp at hp
  | cons e rest ih =>
    by_cases hep : e = p
    · subst hep
      simp [tryEntries, hok]
    · have he := hrest e (by simp) hep
      simp only [tryEntries]
      cases hdec : e.primitive.dec payload aad with
      | ok pt => rw [hdec] at he; simp [Except.isOk, Except.toBool] at he
      | error _ =>
        have hp' : p ∈ rest := by
          rcases List.mem_cons.mp hp with h | h
          · exact absurd h.symm hep
          · exact h
        exact ih hp' (fun e' h' hne => hrest e' (by simp [h']) hne)

/-- C1 -- For every ciphertext and associated data, the deterministic-AEAD
dispatcher's `DecryptDeterministically` either succeeds or fails with the one
fixed generic error `daead_factory: decryption failed`; no other error is
observable, so a wrong key and a forged ciphertext surface the same error. -/
theorem C1_daead_decrypt_single_generic_error (ps : DPrimitiveSet)
    (ct aad : Bytes) :
    decryptDeterministically ps ct aad = Except.error genericDaeadError ∨
    ∃ pt, decryptDeterministically ps ct aad = Except.ok pt := by
  unfold decryptDeterministically
  cases hpre : (if ct.length > nonRawPrefixSize then
      tryEntries (entriesForPrefix ps (ct.take nonRawPrefixSize))
        (ct.drop nonRawPrefixSize) aad
    else none) with
  | some pt => exact Or.inr ⟨pt, by simp [hpre]⟩
  | none =>
    cases hraw : tryEntries (rawEntries ps) ct aad with
    | some pt => exact Or.inr ⟨pt, by simp [hpre, hraw]⟩
    | none => exact Or.inl (by simp [hpre, hraw])

/-- C2 -- `DecryptDeterministically` is exactly the consume protocol worded by
the spec: iff the input is strictly longer than 5 bytes the leading 5 bytes
select a prefix group whose entries are tried in declared order on the
remaining payload (first success returned immediately), after which every raw
entry is tried in declared order on the original unmodified input. -/
theorem C2_daead_consume_matches_spec (ps : DPrimitiveSet) (ct aad : Bytes) :
    decryptDeterministically ps ct aad = consumeSpec ps ct aad := by
  unfold decryptDeterministically consumeSpec nonRawPrefixSize
  rw [tryEntries_eq_findSome?, tryEntries_eq_findSome?]
  cases h : (if ct.length > 5 then
      (entriesForPrefix ps (ct.take 5)).findSome?
        (fun e => (e.primitive.dec (ct.drop 5) aad).toOption)
    else none) with
  | some pt => simp [h, Option.orElse]
  | none => simp [h, Option.orElse]

/-- C3 -- `EncryptDeterministically` consults only the primary entry: on
success it returns the primary's prefix prepended to the primitive's output
(exactly the unmodified output when the prefix is empty), on failure it
surfaces the primitive's error, and its result depends on nothing in the set
but the primary entry. -/
theorem C3_daead_encrypt_primary_only (ps : DPrimitiveSet) (m aad : Bytes) :
    (∀ ct, ps.primary.primitive.enc m aad = Except.ok ct →
      encryptDeterministically ps m aad = Except.ok (ps.primary.keyPrefix ++ ct) ∧
      (ps.primary.keyPrefix = [] →
        encryptDeterministically ps m aad = Except.ok ct)) ∧
    (∀ e, ps.primary.primitive.enc m aad = Except.error e →
      encryptDeterministically ps m aad = Except.error e) ∧
    (∀ ps' : DPrimitiveSet, ps'.primary = ps.primary →
      encryptDeterministically ps' m aad = encryptDeterministically ps m aad) := by
  refine ⟨?_, ?_, ?_⟩
  · intro ct hok
    constructor
    · simp [encryptDeterministically, hok]
    · intro hemp
      simp [encryptDeterministically, hok, hemp]
  · intro e herr
    simp [encryptDeterministically, herr]
  · intro ps' hpr
    simp [encryptDeterministically, hpr]

/-- Witness for C3: a concrete one-key set; encryption prepends the TINK
prefix of key id 1 to the toy primitive's output. -/
def idDAEAD : DAEAD where
  enc := fun m _ => Except.ok m
  dec := fun c _ => Except.ok c

/-- A concrete TINK-prefixed entry (key id 1) over the identity toy DAEAD. -/
def tinkEntry1 : PSEntry where
  keyID := 1
  keyPrefix := [1, 0, 0, 0, 1]
  primitive := idDAEAD

/-- A concrete one-key primitive set with `tinkEntry1` as primary. -/
def psTink1 : DPrimitiveSet where
  entries := [([1, 0, 0, 0, 1], [tinkEntry1])]
  primary := tinkEntry1

theorem C3_daead_encrypt_primary_only_witness :
    encryptDeterministically psTink1 [9] [] = Except.ok [1, 0, 0, 0, 1, 9] :=
  ((C3_daead_encrypt_primary_only psTink1 [9] []).1 [9] rfl).1

theorem lookup_mem_map_snd {p : Bytes} {l : List PSEntry}
    {es : List (Bytes × List PSEntry)} (h : es.lookup p = some l) :
    l ∈ es.map Prod.snd := by
  induction es with
  | nil => simp [List.lookup] at h
  | cons hd tl ih =>
    rw [List.lookup] at h
    cases hb : p == hd.1 with
    | true =>
      rw [hb] at h
      simp only [Option.some.injEq] at h
      subst h
      simp
    | false =>
      rw [hb] at h
      simp [ih h]

theorem lookup_key_eq {p : Bytes} {l : List PSEntry}
    {es : List (Bytes × List PSEntry)} (h : es.lookup p = some l) :
    (p, l) ∈ es := by
  induction es with
  | nil => simp [List.lookup] at h
  | cons hd tl ih =>
    rw [List.lookup] at h
    cases hb : p == hd.1 with
    | true =>
      rw [hb] at h
      simp only [Option.some.injEq] at h
      have hkey : p = hd.1 := eq_of_beq hb
      have hpair : hd = (p, l) := by
        cases hd
        simp at hkey h
        simp [hkey, h]
      simp [← hpair]
    | false =>
      rw [hb] at h
      simp [ih h]

theorem mem_entriesForPrefix_mem_allEntries {ps : DPrimitiveSet} {p : Bytes}
    {e : PSEntry} (h : e ∈ entriesForPrefix ps p) : e ∈ allEntries ps := by
  unfold entriesForPrefix at h
  cases hl : ps.entries.lookup p with
  | none => rw [hl] at h; simp at h
  | some l =>
    rw [hl] at h
    exact List.mem_flatten.mpr ⟨l, lookup_mem_map_snd hl, h⟩

theorem mem_entriesForPrefix_keyPrefix {ps : DPrimitiveSet} {p : Bytes}
    {e : PSEntry} (hv : ∀ pl ∈ ps.entries, ∀ x ∈ pl.2, x.keyPrefix = pl.1)
    (h : e ∈ entriesForPrefix ps p) : e.keyPrefix = p := by
  unfold entriesForPrefix at h
  cases hl : ps.entries.lookup p with
  | none => rw [hl] at h; simp at h
  | some l =>
    rw [hl] at h
    exact hv (p, l) (lookup_key_eq hl) e h

/-- A deterministic AEAD that encrypts the single message `[42]` to the empty
ciphertext and inverts itself correctly on everything it can produce. -/
def emptyCtDAEAD : DAEAD where
  enc := fun m _ => if m = [42] then Except.ok [] else Except.error "unsupported"
  dec := fun c _ => if c = [] then Except.ok [42] else Except.error "bad input"

/-- A TINK-prefixed entry (key id 1) over `emptyCtDAEAD`. -/
def emptyCtEntry : PSEntry where
  keyID := 1
  keyPrefix := [1, 0, 0, 0, 1]
  primitive := emptyCtDAEAD

/-- A validly built one-key set whose primary produces empty ciphertexts. -/
def psEmptyCt : DPrimitiveSet where
  entries := [([1, 0, 0, 0, 1], [emptyCtEntry])]
  primary := emptyCtEntry

theorem emptyCtDAEAD_selfInverting : SelfInverting emptyCtDAEAD := by
  intro m a c h
  simp only [emptyCtDAEAD] at h ⊢
  by_cases hm : m = [42]
  · rw [if_pos hm] at h
    simp only [Except.ok.injEq] at h
    subst hm
    simp [← h]
  · rw [if_neg hm] at h
    exact absurd h (by simp)

theorem psEmptyCt_valid : ValidSet psEmptyCt := by
  refine ⟨?_, ?_, ?_⟩
  · intro pl hpl e he
    simp only [psEmptyCt, List.mem_singleton] at hpl
    subst hpl
    simp only [List.mem_singleton] at he
    subst he
    rfl
  · simp [psEmptyCt, entriesForPrefix, emptyCtEntry, List.lookup]
  · right; rfl

/-- C4 counterexample -- a validly built primitive set whose every primitive
correctly inverts its own encryption, yet the round trip fails: the primary's
TINK-prefixed ciphertext of `[42]` is exactly 5 bytes, so the dispatcher's
strict length check skips the prefix group and decryption ends in the generic
error instead of returning `[42]`. -/
theorem C4_round_trip_counterexample :
    ValidSet psEmptyCt ∧
    (∀ e ∈ allEntries psEmptyCt, SelfInverting e.primitive) ∧
    encryptDeterministically psEmptyCt [42] [] = Except.ok [1, 0, 0, 0, 1] ∧
    decryptDeterministically psEmptyCt [1, 0, 0, 0, 1] [] =
      Except.error genericDaeadError := by
  refine ⟨psEmptyCt_valid, ?_, ?_, ?_⟩
  · intro e he
    simp only [allEntries, psEmptyCt, List.map, List.flatten, List.append_nil,
      List.mem_singleton] at he
    subst he
    exact emptyCtDAEAD_selfInverting
  · rfl
  · rfl

/-- C4 amended -- round trip through the dispatcher: for every validly built
primitive set and plaintext, if the primary's primitive inverts its own
encryption, its ciphertext is nonempty, and every other entry's decryption
attempt on the produced ciphertext (with and without the 5-byte prefix
stripped) fails, then `DecryptDeterministically` of
`EncryptDeterministically` returns the original plaintext. -/
theorem C4_round_trip_amended (ps : DPrimitiveSet) (m aad ct0 : Bytes)
    (hvalid : ValidSet ps)
    (henc : ps.primary.primitive.enc m aad = Except.ok ct0)
    (hdec : ps.primary.primitive.dec ct0 aad = Except.ok m)
    (hne : ct0 ≠ [])
    (hothers : ∀ e ∈ allEntries ps, e ≠ ps.primary →
      (e.primitive.dec ((ps.primary.keyPrefix ++ ct0).drop 5) aad).isOk = false ∧
      (e.primitive.dec (ps.primary.keyPrefix ++ ct0) aad).isOk = false) :
    encryptDeterministically ps m aad =
      Except.ok (ps.primary.keyPrefix ++ ct0) ∧
    decryptDeterministically ps (ps.primary.keyPrefix ++ ct0) aad =
      Except.ok m := by
  obtain ⟨hv1, hv2, hv3⟩ := hvalid
  refine ⟨by simp [encryptDeterministically, henc], ?_⟩
  have hct0len : 1 ≤ ct0.length := by
    cases ct0 with
    | nil => exact absurd rfl hne
    | cons a l => simp
  rcases hv3 with hz | hfive
  · -- raw primary: the prefix branch (if any) only sees 5-byte-prefix
    -- entries, none of which is the primary; the raw branch succeeds.
    have hpfx : ps.primary.keyPrefix = [] := List.length_eq_zero.mp hz
    rw [hpfx, List.nil_append] at hothers ⊢
    have hraw : tryEntries (rawEntries ps) ct0 aad = some m := by
      apply tryEntries_first_success (p := ps.primary)
      · unfold rawEntries
        rw [← hpfx]
        exact hv2
      · exact hdec
      · intro e he hnep
        exact (hothers e (mem_entriesForPrefix_mem_allEntries he) hnep).2
    unfold decryptDeterministically
    by_cases hlen : ct0.length > nonRawPrefixSize
    · have hpref : tryEntries (entriesForPrefix ps (ct0.take nonRawPrefixSize))
          (ct0.drop nonRawPrefixSize) aad = none := by
        apply tryEntries_eq_none
        intro e he
        have hep : e.keyPrefix = ct0.take nonRawPrefixSize :=
          mem_entriesForPrefix_keyPrefix hv1 he
        have hnep : e ≠ ps.primary := by
          intro hcontra
          have : ps.primary.keyPrefix = ct0.take nonRawPrefixSize := by
            rw [← hcontra, hep]
          rw [hpfx] at this
          have htl : (ct0.take nonRawPrefixSize).length = nonRawPrefixSize := by
            rw [List.length_take]
            omega
          rw [← this] at htl
          simp [nonRawPrefixSize] at htl
        exact (hothers e (mem_entriesForPrefix_mem_allEntries he) hnep).1
      simp only [if_pos hlen, hpref, hraw]
    · simp only [if_neg hlen, hraw]
  · -- 5-byte primary prefix: the prefix branch finds the primary's group and
    -- the primary is the only entry there that can succeed.
    have hlen : (ps.primary.keyPrefix ++ ct0).length > nonRawPrefixSize := by
      rw [List.length_append, hfive]
      simp [nonRawPrefixSize]
      omega
    have htake : (ps.primary.keyPrefix ++ ct0).take nonRawPrefixSize =
        ps.primary.keyPrefix := by
      rw [show nonRawPrefixSize = ps.primary.keyPrefix.length from hfive.symm]
      exact List.take_left _ _
    have hdrop : (ps.primary.keyPrefix ++ ct0).drop nonRawPrefixSize = ct0 := by
      rw [show nonRawPrefixSize = ps.primary.keyPrefix.length from hfive.symm]
      exact List.drop_left _ _
    have hpref : tryEntries
        (entriesForPrefix ps ((ps.primary.keyPrefix ++ ct0).take nonRawPrefixSize))
        ((ps.primary.keyPrefix ++ ct0).drop nonRawPrefixSize) aad = some m := by
      rw [htake, hdrop]
      apply tryEntries_first_success (p := ps.primary)
      · exact hv2
      · exact hdec
      · intro e he hnep
        have := (hothers e (mem_entriesForPrefix_mem_allEntries he) hnep).1
        rw [show nonRawPrefixSize = (5 : Nat) from rfl] at hdrop
        rw [hdrop] at this
        exact this
    unfold decryptDeterministically
    simp only [if_pos hlen, hpref]

theorem psTink1_valid : ValidSet psTink1 := by
  refine ⟨?_, ?_, ?_⟩
  · intro pl hpl e he
    simp only [psTink1, List.mem_singleton] at hpl
    subst hpl
    simp only [List.mem_singleton] at he
    subst he
    rfl
  · simp [psTink1, entriesForPrefix, tinkEntry1, List.lookup]
  · right; rfl

/-- Witness for the amended C4 round trip, at the concrete one-key TINK set
over the identity toy primitive. -/
theorem C4_round_trip_amended_witness :
    decryptDeterministically psTink1 [1, 0, 0, 0, 1, 9] [] = Except.ok [9] := by
  have h := C4_round_trip_amended psTink1 [9] [] [9] psTink1_valid rfl rfl
    (by simp)
    (by
      intro e he hnep
      exfalso
      apply hnep
      simp only [allEntries, psTink1, List.map, List.flatten, List.append_nil,
        List.mem_singleton] at he
      exact he)
  simpa using h.2

/-! ## Full AES-GCM AEAD (src/aead/aesgcm/aead.go) -/

/-- The underlying `cipher.AEAD`: nonce size, tag overhead, and the `Open`
operation taking the IV, the ciphertext-with-tag, and the associated data. -/
structure GCMCipher where
  nonceSize : Nat
  overhead : Nat
  openC : Bytes → Bytes → Bytes → Except String Bytes

/-- `fullAEAD`: the underlying cipher plus the key's output prefix (the Go
field `prefix` is embedded as `keyPrefix`). -/
structure FullAEAD where
  cipher : GCMCipher
  keyPrefix : Bytes

/-- `fullAEAD.Decrypt`: reject ciphertexts shorter than
`len(prefix)+ivSize+tagSize`, and ciphertexts whose leading bytes differ from
the key's output prefix; otherwise delegate `Open` on the IV and the
remaining ciphertext-with-tag. -/
def fullAEADDecrypt (a : FullAEAD) (ct aad : Bytes) : Except String Bytes :=
  let ivSize := a.cipher.nonceSize
  let tagSize := a.cipher.overhead
  if ct.length < a.keyPrefix.length + ivSize + tagSize then
    Except.error "ciphertext is too short"
  else if ct.take a.keyPrefix.length ≠ a.keyPrefix then
    Except.error "ciphertext prefix does not match"
  else
    a.cipher.openC ((ct.drop a.keyPrefix.length).take ivSize)
      ((ct.drop a.keyPrefix.length).drop ivSize) aad

/-- C9 -- With the 12-byte IV and 16-byte tag enforced by `NewAEAD`, the full
AES-GCM `Decrypt` errors on every ciphertext shorter than
`len(prefix)+12+16` bytes or whose leading bytes differ from the key's output
prefix, and in those cases its result does not depend on the underlying
cipher (no trial decryption under a mismatched prefix); the cipher's `Open`
is consulted exactly when both conditions hold. -/
theorem C9_aesgcm_full_decrypt_guard (a : FullAEAD) (ct aad : Bytes)
    (hiv : a.cipher.nonceSize = 12) (htag : a.cipher.overhead = 16) :
    ((ct.length < a.keyPrefix.length + 12 + 16 ∨
        ct.take a.keyPrefix.length ≠ a.keyPrefix) →
      (fullAEADDecrypt a ct aad).isOk = false ∧
      (∀ c' : GCMCipher, c'.nonceSize = 12 → c'.overhead = 16 →
        fullAEADDecrypt ⟨c', a.keyPrefix⟩ ct aad = fullAEADDecrypt a ct aad)) ∧
    (¬ ct.length < a.keyPrefix.length + 12 + 16 →
      ct.take a.keyPrefix.length = a.keyPrefix →
      fullAEADDecrypt a ct aad =
        a.cipher.openC ((ct.drop a.keyPrefix.length).take 12)
          ((ct.drop a.keyPrefix.length).drop 12) aad) := by
  constructor
  · intro hbad
    by_cases hshort : ct.length < a.keyPrefix.length + 12 + 16
    · constructor
      · simp [fullAEADDecrypt, hiv, htag, hshort, Except.isOk, Except.toBool]
      · intro c' hiv' htag'
        simp [fullAEADDecrypt, hiv, htag, hiv', htag', hshort]
    · have hmis : ct.take a.keyPrefix.length ≠ a.keyPrefix := by
        rcases hbad with h | h
        · exact absurd h hshort
        · exact h
      constructor
      · simp [fullAEADDecrypt, hiv, htag, hshort, hmis, Except.isOk, Except.toBool]
      · intro c' hiv' htag'
        simp [fullAEADDecrypt, hiv, htag, hiv', htag', hshort, hmis]
  · intro hlong hmatch
    simp [fullAEADDecrypt, hiv, htag, hlong, hmatch]

/-- Witness for C9: a 5-byte-prefix key rejects the 1-byte ciphertext. -/
theorem C9_aesgcm_full_decrypt_guard_witness :
    (fullAEADDecrypt
        ⟨⟨12, 16, fun _ _ _ => Except.ok []⟩, [1, 0, 0, 0, 2]⟩
        [0] []).isOk = false :=
  ((C9_aesgcm_full_decrypt_guard
      ⟨⟨12, 16, fun _ _ _ => Except.ok []⟩, [1, 0, 0, 0, 2]⟩
      [0] [] rfl rfl).1 (Or.inl (by simp))).1

/-! ## JWT verifier factory (src/jwt/jwt_verifier_factory.go) -/

/-- `tinkpb.OutputPrefixType`. -/
inductive PrefixType where
  | UNKNOWN
  | TINK
  | LEGACY
  | CRUNCHY
  | RAW
deriving DecidableEq, Repr

/-- The generic verification error `errJwtVerification` of the jwt package
(its exact message is not under src; only its identity matters). -/
def errJwtVerification : String := "verifier_factory: invalid JWT"

/-- One entry of the JWT verifier primitive set: key id, output prefix type
and the `verifierWithKID` primitive, modelled as a function of the compact
token, the validator and the optional key id
(`VerifyAndDecodeWithKID(compact, validator, kid)`). Tokens, validators and
decoded JWTs are opaque and modelled as `Nat`. -/
structure JwtEntry where
  keyID : Nat
  prefixType : PrefixType
  primitive : Nat → Nat → Option Nat → Except String Nat

/-- The JWT verifier primitive set: the ordered groups of `ps.Entries`. -/
structure JwtPrimitiveSet where
  entries : List (List JwtEntry)

/-- The wrapped verifier holding a validated primitive set. -/
structure WrappedVerifier where
  ps : JwtPrimitiveSet

/-- `keyID(keyID, prefixType)`: TINK entries verify with their key id as KID,
RAW entries with none (collaborator of the factory; not itself under src). -/
def jwtKeyID (id : Nat) (pt : PrefixType) : Option Nat :=
  match pt with
  | PrefixType.TINK => some id
  | _ => none

/-- `newWrappedVerifier`: reject the set if any entry of any prefix group has
an output prefix type other than RAW or TINK; otherwise wrap it. (Monitoring
is not modelled: with no annotations the logger construction in the source
cannot fail.) -/
def newWrappedVerifier (ps : JwtPrimitiveSet) : Except String WrappedVerifier :=
  if ps.entries.any (fun grp => grp.any
      (fun p => p.prefixType ≠ PrefixType.RAW ∧ p.prefixType ≠ PrefixType.TINK)) then
    Except.error "jwt_verifier_factory: invalid OutputPrefixType"
  else
    Except.ok ⟨ps⟩

/-- The result of one per-key verification attempt in
`wrappedVerifier.VerifyAndDecode`. -/
def jwtAttempt (compact validator : Nat) (e : JwtEntry) : Except String Nat :=
  e.primitive compact validator (jwtKeyID e.keyID e.prefixType)

/-- The loop body of `wrappedVerifier.VerifyAndDecode`: try each entry in
order, return the first success; remember the most recent error that differs
from the generic `errJwtVerification`; when exhausted, surface the remembered
interesting error if any, else the generic error. -/
def verifyLoop (compact validator : Nat) :
    List JwtEntry → Option String → Except String Nat
  | [], some e => Except.error e
  | [], none => Except.error errJwtVerification
  | e :: rest, acc =>
    match jwtAttempt compact validator e with
    | Except.ok v => Except.ok v
    | Except.error err =>
      verifyLoop compact validator rest
        (if err ≠ errJwtVerification then some err else acc)

/-- `wrappedVerifier.VerifyAndDecode` over all entries of all groups. -/
def verifyAndDecode (w : WrappedVerifier) (compact validator : Nat) :
    Except String Nat :=
  verifyLoop compact validator w.ps.entries.flatten none

theorem verifyLoop_error_characterization (compact validator : Nat)
    (l : List JwtEntry) (acc : Option String)
    (hacc : ∀ x, acc = some x → x ≠ errJwtVerification) (err : String)
    (h : verifyLoop compact validator l acc = Except.error err) :
    (∀ e ∈ l, (jwtAttempt compact validator e).isOk = false) ∧
    (err = errJwtVerification ↔
      (acc = none ∧ ∀ e ∈ l, jwtAttempt compact validator e =
        Except.error errJwtVerification)) ∧
    (err ≠ errJwtVerification →
      (acc = some err ∨ ∃ e ∈ l, jwtAttempt compact validator e =
        Except.error err)) := by
  induction l generalizing acc with
  | nil =>
    cases acc with
    | none =>
      simp only [verifyLoop, Except.error.injEq] at h
      subst h
      simp
    | some x =>
      simp only [verifyLoop, Except.error.injEq] at h
      subst h
      have hx := hacc x rfl
      refine ⟨by simp, ?_, ?_⟩
      · simp [hx]
      · intro _
        exact Or.inl rfl
  | cons e rest ih =>
    simp only [verifyLoop] at h
    cases hat : jwtAttempt compact validator e with
    | ok v => rw [hat] at h; exact absurd h (by simp)
    | error s =>
      rw [hat] at h
      set acc' := if s ≠ errJwtVerification then some s else acc with hacc'
      have hacc'wf : ∀ x, acc' = some x → x ≠ errJwtVerification := by
        intro x hx
        rw [hacc'] at hx
        by_cases hs : s ≠ errJwtVerification
        · rw [if_pos hs] at hx
          simp only [Option.some.injEq] at hx
          subst hx
          exact hs
        · rw [if_neg hs] at hx
          exact hacc x hx
      obtain ⟨ha1, ha2, ha3⟩ := ih acc' hacc'wf h
      refine ⟨?_, ?_, ?_⟩
      · intro e' he'
        rcases List.mem_cons.mp he' with rfl | hmem
        · simp [hat, Except.isOk, Except.toBool]
        · exact ha1 e' hmem
      · rw [ha2]
        constructor
        · rintro ⟨hnone, hall⟩
          have hs : s = errJwtVerification := by
            by_contra hs
            rw [hacc', if_pos hs] at hnone
            simp at hnone
          have hacceq : acc = none := by
            rw [hacc', if_neg (by simp [hs])] at hnone
            exact hnone
          refine ⟨hacceq, ?_⟩
          intro e' he'
          rcases List.mem_cons.mp he' with rfl | hmem
          · rw [hat, hs]
          · exact hall e' hmem
        · rintro ⟨hnone, hall⟩
          have hs : s = errJwtVerification := by
            have := hall e (by simp)
            rw [hat] at this
            simpa using this
          constructor
          · rw [hacc', if_neg (by simp [hs]), hnone]
          · intro e' he'
            exact hall e' (by simp [he'])
      · intro hne
        rcases ha3 hne with hcase | ⟨e', he', hval⟩
        · rw [hacc'] at hcase
          by_cases hs : s ≠ errJwtVerification
          · rw [if_pos hs] at hcase
            simp only [Option.some.injEq] at hcase
            subst hcase
            exact Or.inr ⟨e, by simp, hat⟩
          · rw [if_neg hs] at hcase
            exact Or.inl hcase
        · exact Or.inr ⟨e', by simp [he'], hval⟩

/-- C8 -- When `VerifyAndDecode` fails, every key was attempted and failed;
the generic `errJwtVerification` is returned exactly when every attempt
failed with the generic error, and whenever some attempt produced a different
("interesting") error, the returned error is such a non-generic attempt
error. -/
theorem C8_jwt_verify_interesting_error (w : WrappedVerifier)
    (compact validator : Nat) (err : String)
    (h : verifyAndDecode w compact validator = Except.error err) :
    (∀ e ∈ w.ps.entries.flatten,
      (jwtAttempt compact validator e).isOk = false) ∧
    (err = errJwtVerification ↔
      ∀ e ∈ w.ps.entries.flatten,
        jwtAttempt compact validator e = Except.error errJwtVerification) ∧
    (err ≠ errJwtVerification →
      ∃ e ∈ w.ps.entries.flatten,
        jwtAttempt compact validator e = Except.error err) := by
  obtain ⟨h1, h2, h3⟩ := verifyLoop_error_characterization compact validator
    w.ps.entries.flatten none (by simp) err h
  refine ⟨h1, ?_, ?_⟩
  · rw [h2]
    simp
  · intro hne
    rcases h3 hne with hcase | hcase
    · simp at hcase
    · exact hcase

/-- A JWT entry whose primitive always fails with a non-generic error. -/
def jwtEntryInteresting : JwtEntry where
  keyID := 1
  prefixType := PrefixType.TINK
  primitive := fun _ _ _ => Except.error "jwt_verifier: malformed token"

/-- A JWT entry whose primitive always fails with the generic error. -/
def jwtEntryGeneric : JwtEntry where
  keyID := 2
  prefixType := PrefixType.RAW
  primitive := fun _ _ _ => Except.error errJwtVerification

/-- A wrapped verifier over one group holding both failing entries. -/
def wrappedVerifierTwo : WrappedVerifier where
  ps := ⟨[[jwtEntryInteresting, jwtEntryGeneric]]⟩

/-- Witness for C8: with one interesting and one generic failure, the
returned error is the interesting one and is an attempt error. -/
theorem C8_jwt_verify_interesting_error_witness :
    ∃ e ∈ wrappedVerifierTwo.ps.entries.flatten,
      jwtAttempt 0 0 e = Except.error "jwt_verifier: malformed token" := by
  have h := C8_jwt_verify_interesting_error wrappedVerifierTwo 0 0
    "jwt_verifier: malformed token" rfl
  exact h.2.2 (by simp [errJwtVerification])

/-- C10 -- Building the wrapped JWT verifier fails exactly when some entry of
some prefix group has an output prefix type other than RAW or TINK; the check
covers every entry of every group before any verification is exposed. -/
theorem C10_jwt_verifier_prefix_type_check (ps : JwtPrimitiveSet) :
    (newWrappedVerifier ps).isOk = false ↔
      ∃ grp ∈ ps.entries, ∃ e ∈ grp,
        e.prefixType ≠ PrefixType.RAW ∧ e.prefixType ≠ PrefixType.TINK := by
  unfold newWrappedVerifier
  by_cases hbad : ps.entries.any (fun grp => grp.any
      (fun p => p.prefixType ≠ PrefixType.RAW ∧ p.prefixType ≠ PrefixType.TINK))
  · rw [if_pos hbad]
    simp only [List.any_eq_true, decide_eq_true_eq] at hbad
    simp [Except.isOk, Except.toBool, hbad]
  · rw [if_neg hbad]
    simp only [List.any_eq_true, decide_eq_true_eq] at hbad
    simp [Except.isOk, Except.toBool, hbad]

/-- A JWT entry with the unsupported LEGACY output prefix type. -/
def jwtEntryLegacy : JwtEntry where
  keyID := 3
  prefixType := PrefixType.LEGACY
  primitive := fun _ _ _ => Except.error errJwtVerification

/-- Witness for C10: a LEGACY entry makes the build fail. -/
theorem C10_jwt_verifier_prefix_type_check_witness :
    (newWrappedVerifier ⟨[[jwtEntryLegacy]]⟩).isOk = false := by
  exact (C10_jwt_verifier_prefix_type_check ⟨[[jwtEntryLegacy]]⟩).mpr
    ⟨[jwtEntryLegacy], by simp, jwtEntryLegacy, by simp,
      by simp [jwtEntryLegacy], by simp [jwtEntryLegacy]⟩

/-! ## KMS envelope decrypt (spec §4.5; tests in src/unnamed/part_003) -/

/-- Big-endian value of a byte string (the 4-byte length prefix decoder). -/
def be32val (l : Bytes) : Nat :=
  l.foldl (fun acc b => acc * 256 + b) 0

/-- Modelled from the spec: `KMSEnvelopeAEAD.Decrypt` itself is not under
src (only its tests are). Per spec §4.5, decryption reads the 4-byte
big-endian encrypted-DEK length prefix, rejects ciphertexts shorter than the
prefix, rejects declared lengths above a sane maximum `maxDek` or above the
remaining ciphertext length, then decrypts the DEK with the key-encryption
primitive `kekDec`, reconstructs the DEK primitive `dekDec` and decrypts the
payload with the caller's associated data. -/
def envelopeDecrypt (kekDec : Bytes → Bytes → Except String Bytes)
    (dekDec : Bytes → Bytes → Bytes → Except String Bytes)
    (maxDek : Nat) (ct aad : Bytes) : Except String Bytes :=
  if ct.length < 4 then
    Except.error "kms_envelope_aead: invalid ciphertext"
  else
    let edLen := be32val (ct.take 4)
    if edLen > maxDek ∨ edLen > ct.length - 4 then
      Except.error "kms_envelope_aead: length of encrypted DEK too large"
    else
      match kekDec ((ct.drop 4).take edLen) [] with
      | Except.error e => Except.error e
      | Except.ok dek => dekDec dek ((ct.drop 4).drop edLen) aad

/-- C7 -- Envelope decryption reads the 4-byte big-endian encrypted-DEK
length and fails cleanly whenever the ciphertext is shorter than the length
prefix, or the declared length exceeds the remaining ciphertext length or the
sane maximum; in all those cases neither the key-encryption primitive nor the
DEK primitive is consulted (the result is the same for every choice of
them), so no out-of-bounds access can occur. -/
theorem C7_envelope_decrypt_length_guard
    (kekDec : Bytes → Bytes → Except String Bytes)
    (dekDec : Bytes → Bytes → Bytes → Except String Bytes)
    (maxDek : Nat) (ct aad : Bytes)
    (hbad : ct.length < 4 ∨ be32val (ct.take 4) > ct.length - 4 ∨
      be32val (ct.take 4) > maxDek) :
    (envelopeDecrypt kekDec dekDec maxDek ct aad).isOk = false ∧
    (∀ kekDec' dekDec',
      envelopeDecrypt kekDec' dekDec' maxDek ct aad =
        envelopeDecrypt kekDec dekDec maxDek ct aad) := by
  by_cases hshort : ct.length < 4
  · constructor
    · simp [envelopeDecrypt, hshort, Except.isOk, Except.toBool]
    · intro kekDec' dekDec'
      simp [envelopeDecrypt, hshort]
  · have hlen : be32val (ct.take 4) > maxDek ∨
        be32val (ct.take 4) > ct.length - 4 := by
      rcases hbad with h | h | h
      · exact absurd h hshort
      · exact Or.inr h
      · exact Or.inl h
    constructor
    · simp [envelopeDecrypt, hshort, hlen, Except.isOk, Except.toBool]
    · intro kekDec' dekDec'
      simp [envelopeDecrypt, hshort, hlen]

/-- Witness for C7: the test vector of `TestKMSEnvelopeDecryptHugeEncryptedDek`
(eleven 0x88 bytes) declares a DEK length far beyond both bounds and is
rejected for every key-encryption and DEK primitive; the short input `[1]` of
`TestKMSEnvelopeShortCiphertext` is rejected too. -/
theorem C7_envelope_decrypt_length_guard_witness :
    (envelopeDecrypt (fun _ _ => Except.ok []) (fun _ _ _ => Except.ok [])
      4096 [136, 136, 136, 136, 136, 136, 136, 136, 136, 136, 136] []).isOk
        = false ∧
    (envelopeDecrypt (fun _ _ => Except.ok []) (fun _ _ _ => Except.ok [])
      4096 [1] []).isOk = false :=
  ⟨(C7_envelope_decrypt_length_guard _ _ 4096 _ []
      (Or.inr (Or.inl (by decide)))).1,
   (C7_envelope_decrypt_length_guard _ _ 4096 [1] []
      (Or.inl (by decide))).1⟩

/-! ## Segmented streaming codec (spec §4.4; tests in src/unnamed/part_006)

Modelled from the spec: the AES-CTR-HMAC streaming implementation is not
under src (only its tests are). The codec below follows §4.4: the stream is
`header || segment_0 || ... || segment_last`; the header carries the
per-stream nonce prefix; every ciphertext segment is `segmentSize` bytes
except the last; each segment is the plaintext chunk followed by a
`tagSize`-byte authentication tag bound to the nonce prefix, the segment
number, the last-segment flag and the associated data. The per-segment MAC
is idealized symbolically: its tag injectively encodes everything it
authenticates (a perfectly unforgeable MAC), and tag atoms live above the
byte range 0..255, modelling that an adversary writing plain bytes cannot
guess a valid tag. -/

/-- Injective encoding of a byte string into a single `Nat`. -/
def encodeBytes : Bytes → Nat
  | [] => 0
  | x :: xs => Nat.pair x (encodeBytes xs) + 1

/-- The idealized per-segment MAC: one atom that injectively encodes the
nonce prefix, segment number, last-segment flag, associated data and
plaintext chunk, offset above the byte range. -/
def tagVal (np : Bytes) (idx : Nat) (last : Bool) (aad pt : Bytes) : Nat :=
  256 + Nat.pair (encodeBytes np)
    (Nat.pair idx (Nat.pair (cond last 1 0)
      (Nat.pair (encodeBytes aad) (encodeBytes pt))))

/-- Number of ciphertext segments a byte string of length `n` splits into:
`ceil(n / s)`, with one (empty-payload) segment for an empty stream. -/
def numChunks (s n : Nat) : Nat := max 1 ((n + s - 1) / s)

/-- The `i`-th chunk of `l` when split into pieces of `s` bytes. -/
def chunkAt (s : Nat) (l : Bytes) (i : Nat) : Bytes := (l.drop (i * s)).take s

/-- Seal one segment: plaintext chunk followed by the `t`-byte tag. -/
def sealSeg (t : Nat) (np : Bytes) (idx : Nat) (last : Bool) (aad pt : Bytes) :
    Bytes :=
  pt ++ List.replicate t (tagVal np idx last aad pt)

/-- Open one segment: split off the trailing `t` tag bytes and check them
against the tag recomputed for this position and flag. -/
def openSeg (t : Nat) (np : Bytes) (idx : Nat) (last : Bool) (aad c : Bytes) :
    Option Bytes :=
  if c.length < t then none
  else if c.drop (c.length - t) =
      List.replicate t (tagVal np idx last aad (c.take (c.length - t))) then
    some (c.take (c.length - t))
  else none

/-- Encrypt body: split the plaintext into chunks of `s - t` bytes and seal
chunk `i` as segment `i`, flagging only the final segment. -/
def encBody (t s : Nat) (np aad pt : Bytes) : Bytes :=
  ((List.range (numChunks (s - t) pt.length)).map
    (fun i => sealSeg t np i (i + 1 == numChunks (s - t) pt.length) aad
      (chunkAt (s - t) pt i))).flatten

/-- The whole encrypted stream: header (nonce prefix) then sealed body. -/
def encryptStream (t s : Nat) (np aad pt : Bytes) : Bytes :=
  np ++ encBody t s np aad pt

/-- Decrypt body: split into `s`-byte ciphertext segments, open each in
strictly increasing order (the final one with the last flag), and
concatenate; any failing segment fails the whole stream. -/
def decBody (t s : Nat) (np aad body : Bytes) : Option Bytes :=
  ((List.range (numChunks s body.length)).mapM
    (fun i => openSeg t np i (i + 1 == numChunks s body.length) aad
      (chunkAt s body i))).map List.flatten

/-- Decrypt a stream: read the `hl`-byte header to recover the nonce prefix,
then decrypt the body. -/
def decryptStream (t s hl : Nat) (ct aad : Bytes) : Option Bytes :=
  if ct.length < hl then none
  else decBody t s (ct.take hl) aad (ct.drop hl)

theorem encodeBytes_injective : Function.Injective encodeBytes := by
  intro a
  induction a with
  | nil =>
    intro b h
    cases b with
    | nil => rfl
    | cons y ys => simp [encodeBytes] at h
  | cons x xs ih =>
    intro b h
    cases b with
    | nil => simp [encodeBytes] at h
    | cons y ys =>
      simp only [encodeBytes, Nat.add_right_cancel_iff, Nat.pair_eq_pair] at h
      rw [h.1, ih h.2]

theorem tagVal_injective {np np' aad aad' pt pt' : Bytes} {i i' : Nat}
    {l l' : Bool} (h : tagVal np i l aad pt = tagVal np' i' l' aad' pt') :
    np = np' ∧ i = i' ∧ l = l' ∧ aad = aad' ∧ pt = pt' := by
  unfold tagVal at h
  have h' := Nat.add_left_cancel h
  rw [Nat.pair_eq_pair] at h'
  obtain ⟨h1, hrest⟩ := h'
  rw [Nat.pair_eq_pair] at hrest
  obtain ⟨h2, hrest⟩ := hrest
  rw [Nat.pair_eq_pair] at hrest
  obtain ⟨h3, hrest⟩ := hrest
  rw [Nat.pair_eq_pair] at hrest
  obtain ⟨h4, h5⟩ := hrest
  refine ⟨encodeBytes_injective h1, h2, ?_, encodeBytes_injective h4,
    encodeBytes_injective h5⟩
  cases l <;> cases l' <;> first | rfl | simp at h3

theorem tagVal_ge_256 (np : Bytes) (i : Nat) (l : Bool) (aad pt : Bytes) :
    256 ≤ tagVal np i l aad pt :=
  Nat.le_add_right 256 _

theorem numChunks_pos (s n : Nat) : 0 < numChunks s n :=
  Nat.lt_of_lt_of_le Nat.zero_lt_one (le_max_left 1 _)

theorem numChunks_zero (s : Nat) : numChunks s 0 = 1 := by
  unfold numChunks
  cases s with
  | zero => rfl
  | succ m =>
    rw [Nat.zero_add, Nat.div_eq_of_lt (by omega)]
    rfl

theorem numChunks_eq (s n : Nat) (hs : 0 < s) (hn : 0 < n) :
    numChunks s n = (n - 1) / s + 1 := by
  unfold numChunks
  have h : n + s - 1 = (n - 1) + s := by omega
  rw [h, Nat.add_div_right _ hs]
  exact Nat.max_eq_right (Nat.succ_le_succ (Nat.zero_le _))

theorem numChunks_eq_of (s n k : Nat) (hs : 0 < s) (hn : 0 < n)
    (hk : 0 < k) (h1 : (k - 1) * s < n) (h2 : n ≤ k * s) :
    numChunks s n = k := by
  rw [numChunks_eq s n hs hn]
  have hdiv : (n - 1) / s = k - 1 := by
    apply Nat.div_eq_of_lt_le
    · omega
    · have hku : k - 1 + 1 = k := by omega
      rw [hku]
      omega
  omega

theorem le_numChunks_mul (s n : Nat) (hs : 0 < s) :
    n ≤ numChunks s n * s := by
  cases Nat.eq_zero_or_pos n with
  | inl h => simp [h]
  | inr hn =>
    rw [numChunks_eq s n hs hn, Nat.succ_mul]
    have h1 := Nat.div_add_mod (n - 1) s
    rw [Nat.mul_comm] at h1
    have h2 := Nat.mod_lt (n - 1) hs
    omega

theorem numChunks_pred_mul_lt (s n : Nat) (hs : 0 < s) (hn : 0 < n) :
    (numChunks s n - 1) * s < n := by
  rw [numChunks_eq s n hs hn, Nat.succ_sub_one]
  have h1 := Nat.div_mul_le_self (n - 1) s
  omega

theorem chunkAt_length (s : Nat) (l : Bytes) (i : Nat) :
    (chunkAt s l i).length = min s (l.length - i * s) := by
  simp [chunkAt]

theorem take_set_of_lt (l : Bytes) (i k : Nat) (b : Nat) (h : i < k) :
    (l.set i b).take k = (l.take k).set i b := by
  apply List.ext_getElem
  · simp [Nat.min_comm]
  · intro n h1 h2
    simp only [List.length_take, List.length_set, Nat.lt_min] at h1
    rw [List.getElem_take, List.getElem_set, List.getElem_set]
    by_cases hin : i = n
    · simp [hin]
    · simp only [if_neg hin]
      rw [List.getElem_take]

theorem take_set_of_ge (l : Bytes) (i k : Nat) (b : Nat) (h : k ≤ i) :
    (l.set i b).take k = l.take k := by
  by_cases hl : i < l.length
  · apply List.ext_getElem
    · simp
    · intro n h1 h2
      rw [List.getElem_take, List.getElem_set]
      simp only [List.length_take, List.length_set, Nat.lt_min] at h1
      rw [if_neg (by omega)]
      rw [List.getElem_take]
  · rw [List.set_eq_of_length_le (by omega)]

theorem drop_set_add (l : Bytes) (k o : Nat) (b : Nat) :
    (l.set (k + o) b).drop k = (l.drop k).set o b := by
  apply List.ext_getElem
  · simp
  · intro n h1 h2
    simp only [List.length_drop, List.length_set] at h1
    rw [List.getElem_drop, List.getElem_set, List.getElem_set]
    by_cases ho : o = n
    · simp [ho]
    · rw [if_neg (by omega), if_neg ho, List.getElem_drop]

theorem drop_set_of_lt (l : Bytes) (i k : Nat) (b : Nat) (h : i < k) :
    (l.set i b).drop k = l.drop k := by
  by_cases hl : i < l.length
  · apply List.ext_getElem
    · simp
    · intro n h1 h2
      rw [List.getElem_drop, List.getElem_set, if_neg (by omega),
        List.getElem_drop]
  · rw [List.set_eq_of_length_le (by omega)]

theorem set_ne_imp {l : Bytes} {i b : Nat} (h : l.set i b ≠ l) :
    ∃ hi : i < l.length, l[i] ≠ b := by
  by_cases hl : i < l.length
  · refine ⟨hl, ?_⟩
    intro hb
    apply h
    apply List.ext_getElem
    · simp
    · intro n h1 h2
      rw [List.getElem_set]
      by_cases hin : i = n
      · subst hin
        simp [hb]
      · simp [hin]
  · exact absurd (List.set_eq_of_length_le (by omega)) h

/-- A list of ciphertext segments laid out back to back: all but the last are
exactly `s` bytes, the last is at most `s` bytes and nonempty unless it is
the only segment. -/
def WellChunked (s : Nat) (ss : List Bytes) : Prop :=
  ss ≠ [] ∧
  (∀ j, j + 1 < ss.length → (ss.getD j []).length = s) ∧
  (ss.getD (ss.length - 1) []).length ≤ s ∧
  (1 ≤ (ss.getD (ss.length - 1) []).length ∨ ss.length = 1)

theorem wellChunked_struct (s : Nat) (hs : 0 < s) :
    ∀ ss : List Bytes, WellChunked s ss →
      numChunks s ss.flatten.length = ss.length ∧
      (∀ j, j < ss.length → chunkAt s ss.flatten j = ss.getD j []) ∧
      (1 ≤ ss.flatten.length ∨ ss.length = 1) := by
  intro ss
  induction ss with
  | nil => intro hw; exact absurd rfl hw.1
  | cons c rest ih =>
    intro hw
    obtain ⟨-, hfull, hlast, hlastne⟩ := hw
    cases rest with
    | nil =>
      have hcs : c.length ≤ s := by simpa using hlast
      refine ⟨?_, ?_, Or.inr rfl⟩
      · simp only [List.flatten_cons, List.flatten_nil, List.append_nil]
        cases Nat.eq_zero_or_pos c.length with
        | inl h => rw [h, numChunks_zero]; rfl
        | inr h =>
          exact numChunks_eq_of s c.length 1 hs h Nat.one_pos (by simpa) (by simpa)
      · intro j hj
        have hj0 : j = 0 := by simpa using hj
        subst hj0
        simp only [List.flatten_cons, List.flatten_nil, List.append_nil,
          chunkAt, Nat.zero_mul, List.drop_zero, List.getD]
        exact List.take_of_length_le hcs
    | cons r rs =>
      have hc : c.length = s := hfull 0 (by simp)
      have hwrest : WellChunked s (r :: rs) := by
        refine ⟨by simp, ?_, ?_, ?_⟩
        · intro j hj
          have := hfull (j + 1) (by simpa using Nat.succ_lt_succ hj)
          simpa using this
        · simpa using hlast
        · rcases hlastne with h | h
          · exact Or.inl (by simpa using h)
          · simp at h
      obtain ⟨ihn, ihc, ihl⟩ := ih hwrest
      have hL : 1 ≤ (r :: rs).flatten.length := by
        rcases ihl with h | h
        · exact h
        · have hrs : rs = [] := by simpa using h
          subst hrs
          rcases hlastne with h1 | h1
          · simpa using h1
          · simp at h1
      set L := (r :: rs).flatten.length with hLdef
      set R := (r :: rs).length with hRdef
      have hR : 1 ≤ R := by simp [hRdef]
      have hflat : (c :: r :: rs).flatten = c ++ (r :: rs).flatten :=
        List.flatten_cons
      refine ⟨?_, ?_, ?_⟩
      · rw [hflat, List.length_append, hc, ← hLdef]
        have h1 : (R - 1) * s < L := by
          rw [← ihn] at hR ⊢
          exact numChunks_pred_mul_lt s L hs (by omega)
        have h2 : L ≤ R * s := by
          rw [← ihn]
          exact le_numChunks_mul s L hs
        apply numChunks_eq_of s (s + L) (R + 1) hs (by omega) (by omega)
        · simp only [Nat.add_sub_cancel]
          have hmul : R * s = (R - 1) * s + s := by
            conv_lhs => rw [show R = (R - 1) + 1 by omega]
            rw [Nat.succ_mul]
          omega
        · rw [Nat.succ_mul]
          omega
      · intro j hj
        cases j with
        | zero =>
          rw [hflat]
          simp only [chunkAt, Nat.zero_mul, List.drop_zero, List.getD]
          rw [← hc, List.take_left]
          rfl
        | succ m =>
          rw [hflat]
          have hm : m < (r :: rs).length := by simpa using hj
          have hidx : (m + 1) * s = c.length + m * s := by
            rw [hc, Nat.succ_mul, Nat.add_comm]
          simp only [chunkAt, hidx, List.drop_append]
          have := ihc m hm
          simp only [chunkAt] at this
          rw [this]
          rfl
      · left
        rw [hflat]
        simp only [List.length_append]
        omega

theorem sealSeg_length (t : Nat) (np : Bytes) (i : Nat) (l : Bool)
    (aad p : Bytes) : (sealSeg t np i l aad p).length = p.length + t := by
  simp [sealSeg]

theorem openSeg_sealSeg (t : Nat) (ht : 0 < t) (np np' : Bytes) (i i' : Nat)
    (l l' : Bool) (aad aad' p : Bytes) :
    openSeg t np' i' l' aad' (sealSeg t np i l aad p) =
      if np = np' ∧ i = i' ∧ l = l' ∧ aad = aad' then some p else none := by
  have hlen : (sealSeg t np i l aad p).length = p.length + t :=
    sealSeg_length t np i l aad p
  have hnotlt : ¬ (sealSeg t np i l aad p).length < t := by omega
  have hsub : (sealSeg t np i l aad p).length - t = p.length := by omega
  have htake : (sealSeg t np i l aad p).take p.length = p := by
    unfold sealSeg
    exact List.take_left _ _
  have hdrop : (sealSeg t np i l aad p).drop p.length =
      List.replicate t (tagVal np i l aad p) := by
    unfold sealSeg
    exact List.drop_left _ _
  unfold openSeg
  rw [if_neg hnotlt, hsub, htake, hdrop]
  by_cases hcond : np = np' ∧ i = i' ∧ l = l' ∧ aad = aad'
  · obtain ⟨h1, h2, h3, h4⟩ := hcond
    subst h1; subst h2; subst h3; subst h4
    rw [if_pos rfl, if_pos ⟨rfl, rfl, rfl, rfl⟩]
  · rw [if_neg ?_, if_neg hcond]
    intro heq
    rw [List.replicate_inj] at heq
    rcases heq.2 with h0 | hv
    · omega
    · obtain ⟨e1, e2, e3, e4, e5⟩ := tagVal_injective hv
      exact hcond ⟨e1, e2, e3, e4⟩

theorem mapM_option_eq_none {α β : Type} (f : α → Option β) (l : List α)
    (x : α) (hx : x ∈ l) (hf : f x = none) : l.mapM f = none := by
  induction l with
  | nil => simp at hx
  | cons a rest ih =>
    rw [List.mapM_cons]
    rcases List.mem_cons.mp hx with rfl | hmem
    · rw [hf]
      rfl
    · cases ha : f a with
      | none => rfl
      | some b =>
        rw [ih hmem]
        rfl

theorem mapM_option_eq_some {α β : Type} (f : α → Option β) (g : α → β)
    (l : List α) (h : ∀ x ∈ l, f x = some (g x)) :
    l.mapM f = some (l.map g) := by
  induction l with
  | nil => rfl
  | cons a rest ih =>
    rw [List.mapM_cons, h a (by simp), ih (fun x hx => h x (by simp [hx]))]
    rfl

theorem decBody_eq_none (t s : Nat) (np aad body : Bytes) (i : Nat)
    (hi : i < numChunks s body.length)
    (hopen : openSeg t np i
      (i + 1 == numChunks s body.length) aad (chunkAt s body i) = none) :
    decBody t s np aad body = none := by
  unfold decBody
  rw [mapM_option_eq_none _ _ i (List.mem_range.mpr hi) hopen]
  rfl

theorem decBody_eq_some (t s : Nat) (np aad body : Bytes) (g : Nat → Bytes)
    (h : ∀ i < numChunks s body.length,
      openSeg t np i (i + 1 == numChunks s body.length) aad (chunkAt s body i)
        = some (g i)) :
    decBody t s np aad body =
      some (((List.range (numChunks s body.length)).map g).flatten) := by
  unfold decBody
  rw [mapM_option_eq_some _ g _
    (fun i hi => h i (List.mem_range.mp hi))]
  rfl

theorem getD_map_range {β : Type} (f : Nat → β) (n j : Nat) (hj : j < n)
    (d : β) : ((List.range n).map f).getD j d = f j := by
  rw [List.getD_eq_getElem _ _ (by simpa using hj)]
  simp

theorem sealed_wellChunked (t s : Nat) (np aad pt : Bytes) (ht : 0 < t)
    (hts : t < s) :
    WellChunked s ((List.range (numChunks (s - t) pt.length)).map
      (fun i => sealSeg t np i (i + 1 == numChunks (s - t) pt.length) aad
        (chunkAt (s - t) pt i))) := by
  set m := s - t with hm
  have hmpos : 0 < m := by omega
  set k := numChunks m pt.length with hk
  have hkpos : 0 < k := numChunks_pos m pt.length
  refine ⟨?_, ?_, ?_, ?_⟩
  · intro hcontra
    have : k = 0 := by simpa using congrArg List.length hcontra
    omega
  · intro j hj
    rw [show ((List.range k).map (fun i => sealSeg t np i (i + 1 == k) aad
        (chunkAt m pt i))).length = k by simp] at hj
    rw [getD_map_range _ _ _ (by omega)]
    rw [sealSeg_length, chunkAt_length]
    have hptpos : 0 < pt.length := by
      by_contra hz
      have : pt.length = 0 := by omega
      rw [this] at hk
      rw [numChunks_zero] at hk
      omega
    have hlt : (j + 1) * m ≤ (k - 1) * m :=
      Nat.mul_le_mul_right m (by omega)
    have hfull : (k - 1) * m < pt.length :=
      numChunks_pred_mul_lt m pt.length hmpos hptpos
    have : m ≤ pt.length - j * m := by
      rw [Nat.succ_mul] at hlt
      omega
    rw [Nat.min_eq_left this]
    omega
  · rw [show ((List.range k).map (fun i => sealSeg t np i (i + 1 == k) aad
        (chunkAt m pt i))).length = k by simp]
    rw [getD_map_range _ _ _ (by omega)]
    rw [sealSeg_length, chunkAt_length]
    have : min m (pt.length - (k - 1) * m) ≤ m := Nat.min_le_left _ _
    omega
  · left
    rw [show ((List.range k).map (fun i => sealSeg t np i (i + 1 == k) aad
        (chunkAt m pt i))).length = k by simp]
    rw [getD_map_range _ _ _ (by omega)]
    rw [sealSeg_length]
    omega

theorem enc_chunks (t s : Nat) (np aad pt : Bytes) (ht : 0 < t)
    (hts : t < s) :
    numChunks s (encBody t s np aad pt).length =
      numChunks (s - t) pt.length ∧
    ∀ j, j < numChunks (s - t) pt.length →
      chunkAt s (encBody t s np aad pt) j =
        sealSeg t np j (j + 1 == numChunks (s - t) pt.length) aad
          (chunkAt (s - t) pt j) := by
  have hs : 0 < s := by omega
  obtain ⟨h1, h2, h3⟩ := wellChunked_struct s hs _
    (sealed_wellChunked t s np aad pt ht hts)
  constructor
  · rw [show encBody t s np aad pt =
      ((List.range (numChunks (s - t) pt.length)).map
        (fun i => sealSeg t np i (i + 1 == numChunks (s - t) pt.length) aad
          (chunkAt (s - t) pt i))).flatten from rfl, h1]
    simp
  · intro j hj
    rw [show encBody t s np aad pt =
      ((List.range (numChunks (s - t) pt.length)).map
        (fun i => sealSeg t np i (i + 1 == numChunks (s - t) pt.length) aad
          (chunkAt (s - t) pt i))).flatten from rfl]
    rw [h2 j (by simpa using hj)]
    rw [getD_map_range _ _ _ hj]

theorem getElem_eq_of_set_eq {l : Bytes} {i b : Nat} (hi : i < l.length)
    (heq : l.set i b = l) : l[i] = b := by
  have h1 : (l.set i b).getD i 0 = l.getD i 0 := by rw [heq]
  rw [List.getD_eq_getElem _ _ (by simpa using hi),
    List.getD_eq_getElem _ _ hi] at h1
  rw [List.getElem_set, if_pos rfl] at h1
  exact h1.symm

theorem set_ne_of_getElem_ne {l : Bytes} {i b : Nat} (hi : i < l.length)
    (hb : l[i] ≠ b) : l.set i b ≠ l := by
  intro heq
  exact hb (getElem_eq_of_set_eq hi heq)

theorem decryptStream_append (t s : Nat) (np body2 aad : Bytes) :
    decryptStream t s np.length (np ++ body2) aad =
      decBody t s np aad body2 := by
  unfold decryptStream
  rw [if_neg (by rw [List.length_append]; omega), List.take_left,
    List.drop_left]

theorem encBody_len_pos (t s : Nat) (np aad pt : Bytes) (ht : 0 < t)
    (hts : t < s) : 1 ≤ (encBody t s np aad pt).length := by
  obtain ⟨hn, hchunk⟩ := enc_chunks t s np aad pt ht hts
  by_contra hz
  have hzero : (encBody t s np aad pt).length = 0 := by omega
  have h0 := hchunk 0 (numChunks_pos _ _)
  have hlen := congrArg List.length h0
  rw [chunkAt_length, sealSeg_length, hzero] at hlen
  simp at hlen
  omega

theorem openSeg_sealSeg_set (t : Nat) (ht : 0 < t) (np : Bytes) (i : Nat)
    (l : Bool) (aad p : Bytes) (o b : Nat)
    (ho : o < (sealSeg t np i l aad p).length)
    (hb : (sealSeg t np i l aad p)[o] ≠ b) :
    openSeg t np i l aad ((sealSeg t np i l aad p).set o b) = none := by
  have hlen : (sealSeg t np i l aad p).length = p.length + t :=
    sealSeg_length t np i l aad p
  have hlen' : ((sealSeg t np i l aad p).set o b).length = p.length + t := by
    rw [List.length_set, hlen]
  have hnotlt : ¬ ((sealSeg t np i l aad p).set o b).length < t := by omega
  unfold openSeg
  rw [if_neg hnotlt, hlen']
  have hsub : p.length + t - t = p.length := by omega
  rw [hsub]
  by_cases hop : o < p.length
  · have htake : ((sealSeg t np i l aad p).set o b).take p.length =
        p.set o b := by
      rw [take_set_of_lt _ _ _ _ hop]
      unfold sealSeg
      rw [List.take_left]
    have hdrop : ((sealSeg t np i l aad p).set o b).drop p.length =
        List.replicate t (tagVal np i l aad p) := by
      rw [drop_set_of_lt _ _ _ _ hop]
      unfold sealSeg
      rw [List.drop_left]
    rw [htake, hdrop, if_neg]
    intro heq
    rw [List.replicate_inj] at heq
    rcases heq.2 with h0 | hv
    · omega
    · obtain ⟨-, -, -, -, e5⟩ := tagVal_injective hv
      have hpo : p[o] = b := getElem_eq_of_set_eq hop e5.symm
      apply hb
      unfold sealSeg
      rw [List.getElem_append_left hop]
      exact hpo
  · have hu : o - p.length < t := by omega
    have htake : ((sealSeg t np i l aad p).set o b).take p.length =
        p := by
      rw [take_set_of_ge _ _ _ _ (by omega)]
      unfold sealSeg
      rw [List.take_left]
    have hdrop : ((sealSeg t np i l aad p).set o b).drop p.length =
        (List.replicate t (tagVal np i l aad p)).set (o - p.length) b := by
      have ho2 : (sealSeg t np i l aad p).set o b =
          (sealSeg t np i l aad p).set (p.length + (o - p.length)) b := by
        congr 1
        omega
      rw [ho2, drop_set_add]
      unfold sealSeg
      rw [List.drop_left]
    rw [htake, hdrop, if_neg]
    intro heq
    have hlt : o - p.length <
        (List.replicate t (tagVal np i l aad p)).length := by
      simp [hu]
    have hget := getElem_eq_of_set_eq hlt heq
    rw [List.getElem_replicate] at hget
    apply hb
    unfold sealSeg
    rw [List.getElem_append_right (by omega), List.getElem_replicate]
    exact hget

theorem stream_flip (t s : Nat) (np aad pt : Bytes) (ht : 0 < t)
    (hts : t < s) (i b : Nat)
    (hset : (encryptStream t s np aad pt).set i b ≠
      encryptStream t s np aad pt) :
    decryptStream t s np.length ((encryptStream t s np aad pt).set i b) aad
      = none := by
  obtain ⟨hi, hb⟩ := set_ne_imp hset
  obtain ⟨hn, hchunk⟩ := enc_chunks t s np aad pt ht hts
  have hkpos : 0 < numChunks (s - t) pt.length := numChunks_pos _ _
  have hct : encryptStream t s np aad pt =
      np ++ encBody t s np aad pt := rfl
  rw [hct] at hi ⊢
  rw [List.length_append] at hi
  have hb2 : (np ++ encBody t s np aad pt)[i] ≠ b := hb
  by_cases hih : i < np.length
  · -- flip inside the header: segment 0 verifies against a different
    -- nonce prefix and fails.
    have htk : ((np ++ encBody t s np aad pt).set i b).take np.length =
        np.set i b := by
      rw [take_set_of_lt _ _ _ _ hih, List.take_left]
    have hdr : ((np ++ encBody t s np aad pt).set i b).drop np.length =
        encBody t s np aad pt := by
      rw [drop_set_of_lt _ _ _ _ hih, List.drop_left]
    have hlen : ¬ ((np ++ encBody t s np aad pt).set i b).length <
        np.length := by
      rw [List.length_set, List.length_append]
      omega
    unfold decryptStream
    rw [if_neg hlen, htk, hdr]
    have hnp : np[i] ≠ b := by
      rw [List.getElem_append_left hih] at hb2
      exact hb2
    have hne : ¬ (np = np.set i b ∧ (0 : Nat) = 0 ∧
        ((0 : Nat) + 1 == numChunks s (encBody t s np aad pt).length) =
          ((0 : Nat) + 1 == numChunks (s - t) pt.length) ∧ aad = aad) := by
      intro hcontra
      exact set_ne_of_getElem_ne hih hnp hcontra.1.symm
    apply decBody_eq_none t s (np.set i b) aad _ 0
      (by rw [hn]; exact hkpos)
    rw [hchunk 0 hkpos, openSeg_sealSeg t ht, if_neg]
    intro hcontra
    exact set_ne_of_getElem_ne hih hnp hcontra.1.symm
  · -- flip inside the body: the touched segment fails its tag check.
    have hpos : i - np.length < (encBody t s np aad pt).length := by omega
    set pos := i - np.length with hposdef
    have hieq : i = np.length + pos := by omega
    have htk : ((np ++ encBody t s np aad pt).set i b).take np.length =
        np := by
      rw [take_set_of_ge _ _ _ _ (by omega), List.take_left]
    have hdr : ((np ++ encBody t s np aad pt).set i b).drop np.length =
        (encBody t s np aad pt).set pos b := by
      rw [hieq, drop_set_add, List.drop_left]
    have hlen : ¬ ((np ++ encBody t s np aad pt).set i b).length <
        np.length := by
      rw [List.length_set, List.length_append]
      omega
    unfold decryptStream
    rw [if_neg hlen, htk, hdr]
    have hs : 0 < s := by omega
    set j := pos / s with hjdef
    set o := pos % s with hodef
    have ho : o < s := Nat.mod_lt pos hs
    have hjo : j * s + o = pos := by
      rw [hjdef, hodef, Nat.mul_comm]
      exact Nat.div_add_mod pos s
    have hBle : (encBody t s np aad pt).length ≤
        numChunks (s - t) pt.length * s := by
      rw [← hn]
      exact le_numChunks_mul s _ hs
    have hjk : j < numChunks (s - t) pt.length := by
      rw [hjdef]
      rw [Nat.div_lt_iff_lt_mul hs]
      calc pos < (encBody t s np aad pt).length := hpos
        _ ≤ numChunks (s - t) pt.length * s := hBle
    have hnums : numChunks s ((encBody t s np aad pt).set pos b).length =
        numChunks (s - t) pt.length := by
      rw [List.length_set, hn]
    have hchunkset : chunkAt s ((encBody t s np aad pt).set pos b) j =
        (chunkAt s (encBody t s np aad pt) j).set o b := by
      unfold chunkAt
      have hpose : (encBody t s np aad pt).set pos b =
          (encBody t s np aad pt).set (j * s + o) b := by
        rw [hjo]
      rw [hpose, drop_set_add, take_set_of_lt _ _ _ _ ho]
    have hoc : o < (chunkAt s (encBody t s np aad pt) j).length := by
      rw [chunkAt_length]
      rw [Nat.lt_min]
      exact ⟨ho, by omega⟩
    have hbody : (encBody t s np aad pt)[pos] ≠ b := by
      rw [List.getElem_append_right (by omega : np.length ≤ i)] at hb2
      exact hb2
    have hjs : j * s + o < (encBody t s np aad pt).length := by omega
    have hchunkgetD : (chunkAt s (encBody t s np aad pt) j).getD o 0 =
        (encBody t s np aad pt).getD (j * s + o) 0 := by
      rw [List.getD_eq_getElem _ _ hoc]
      unfold chunkAt
      rw [List.getElem_take, List.getElem_drop]
      rw [List.getD_eq_getElem _ _ hjs]
    have hbc : (chunkAt s (encBody t s np aad pt) j)[o] ≠ b := by
      intro hcontra
      apply hbody
      have h1 : (encBody t s np aad pt).getD pos 0 = b := by
        rw [show pos = j * s + o from hjo.symm, ← hchunkgetD,
          List.getD_eq_getElem _ _ hoc]
        exact hcontra
      rw [List.getD_eq_getElem _ _ hpos] at h1
      exact h1
    apply decBody_eq_none t s np aad _ j (by rw [hnums]; exact hjk)
    rw [hnums, hchunkset]
    have hflag := hchunk j hjk
    have hoseal : o < (sealSeg t np j
        (j + 1 == numChunks (s - t) pt.length) aad
        (chunkAt (s - t) pt j)).length := by
      rw [← hflag]
      exact hoc
    have hbseal : (sealSeg t np j
        (j + 1 == numChunks (s - t) pt.length) aad
        (chunkAt (s - t) pt j))[o] ≠ b := by
      intro hcontra
      apply hbc
      have h1 : (chunkAt s (encBody t s np aad pt) j).getD o 0 =
          (sealSeg t np j (j + 1 == numChunks (s - t) pt.length) aad
            (chunkAt (s - t) pt j)).getD o 0 := by
        rw [hflag]
      rw [List.getD_eq_getElem _ _ hoc,
        List.getD_eq_getElem _ _ hoseal] at h1
      rw [h1]
      exact hcontra
    rw [hflag]
    exact openSeg_sealSeg_set t ht np j _ aad _ o b hoseal hbseal

theorem stream_wrong_aad (t s : Nat) (np aad pt : Bytes) (ht : 0 < t)
    (hts : t < s) (aad2 : Bytes) (hne : aad2 ≠ aad) :
    decryptStream t s np.length (encryptStream t s np aad pt) aad2 = none := by
  obtain ⟨hn, hchunk⟩ := enc_chunks t s np aad pt ht hts
  have hkpos : 0 < numChunks (s - t) pt.length := numChunks_pos _ _
  rw [show encryptStream t s np aad pt = np ++ encBody t s np aad pt from rfl,
    decryptStream_append]
  apply decBody_eq_none t s np aad2 _ 0 (by rw [hn]; exact hkpos)
  rw [hchunk 0 hkpos, hn, openSeg_sealSeg t ht, if_neg]
  intro hcontra
  exact hne hcontra.2.2.2.symm

theorem openSeg_nil (t : Nat) (ht : 0 < t) (np : Bytes) (i : Nat) (l : Bool)
    (aad : Bytes) : openSeg t np i l aad [] = none := by
  unfold openSeg
  rw [if_pos]
  simpa using ht

theorem decBody_nil (t s : Nat) (np aad : Bytes) (ht : 0 < t) :
    decBody t s np aad [] = none := by
  apply decBody_eq_none t s np aad [] 0
  · simp only [List.length_nil, numChunks_zero]
    omega
  · rw [show chunkAt s [] 0 = [] by simp [chunkAt]]
    exact openSeg_nil t ht np 0 _ aad

theorem chunkAt_take (s : Nat) (l : Bytes) (i n : Nat)
    (h : i * s + s ≤ n) : chunkAt s (l.take n) i = chunkAt s l i := by
  unfold chunkAt
  rw [List.drop_take, List.take_take]
  congr 1
  omega

theorem stream_truncate (t s : Nat) (np aad pt : Bytes) (ht : 0 < t)
    (hts : t < s) (j : Nat) (hj : j < numChunks (s - t) pt.length) :
    decryptStream t s np.length
      ((encryptStream t s np aad pt).take (np.length + j * s)) aad = none := by
  have hs : 0 < s := by omega
  obtain ⟨hn, hchunk⟩ := enc_chunks t s np aad pt ht hts
  have hkpos : 0 < numChunks (s - t) pt.length := numChunks_pos _ _
  rw [show encryptStream t s np aad pt = np ++ encBody t s np aad pt from rfl,
    List.take_append, decryptStream_append]
  cases Nat.eq_zero_or_pos j with
  | inl hj0 =>
    subst hj0
    rw [show (encBody t s np aad pt).take (0 * s) = [] by simp]
    exact decBody_nil t s np aad ht
  | inr hj1 =>
    have hB1 := encBody_len_pos t s np aad pt ht hts
    have hBgt : (numChunks (s - t) pt.length - 1) * s <
        (encBody t s np aad pt).length := by
      rw [← hn]
      exact numChunks_pred_mul_lt s _ hs (by omega)
    have hjs : j * s ≤ (numChunks (s - t) pt.length - 1) * s :=
      Nat.mul_le_mul_right s (by omega)
    have hlen : ((encBody t s np aad pt).take (j * s)).length = j * s := by
      rw [List.length_take]
      omega
    have hmul : (j - 1) * s + s = j * s := by
      conv_rhs => rw [show j = (j - 1) + 1 by omega]
      rw [Nat.succ_mul]
    have hnum : numChunks s ((encBody t s np aad pt).take (j * s)).length
        = j := by
      rw [hlen]
      apply numChunks_eq_of s (j * s) j hs
        (by positivity) hj1 (by omega) (by omega)
    apply decBody_eq_none t s np aad _ (j - 1) (by rw [hnum]; omega)
    rw [chunkAt_take s _ (j - 1) (j * s) (by omega),
      hchunk (j - 1) (by omega), hnum]
    have hl1 : (j - 1 + 1 == numChunks (s - t) pt.length) = false := by
      rw [show j - 1 + 1 = j from by omega]
      simp only [beq_eq_false_iff_ne, ne_eq]
      omega
    have hl2 : (j - 1 + 1 == j) = true := by
      rw [show j - 1 + 1 = j from by omega]
      simp
    rw [hl1, hl2, openSeg_sealSeg t ht, if_neg]
    simp

theorem stream_append (t s : Nat) (np aad pt junk : Bytes) (ht : 0 < t)
    (hts : t < s) (hjne : junk ≠ []) (hjb : ∀ x ∈ junk, x < 256) :
    decryptStream t s np.length (encryptStream t s np aad pt ++ junk) aad
      = none := by
  have hs : 0 < s := by omega
  have hjlen : 1 ≤ junk.length := by
    cases junk with
    | nil => exact absurd rfl hjne
    | cons a l => simp
  obtain ⟨xj, hxj⟩ : ∃ xj, junk.getLast? = some xj := by
    cases hj : junk.getLast? with
    | none => exact absurd (List.getLast?_eq_none_iff.mp hj) hjne
    | some x => exact ⟨x, rfl⟩
  have hxjb : xj < 256 := hjb xj (List.mem_of_mem_getLast? hxj)
  rw [show encryptStream t s np aad pt = np ++ encBody t s np aad pt from rfl,
    List.append_assoc, decryptStream_append]
  have hB2 : 1 ≤ (encBody t s np aad pt ++ junk).length := by
    rw [List.length_append]
    omega
  have hnpos : 0 < numChunks s (encBody t s np aad pt ++ junk).length :=
    numChunks_pos _ _
  have hlt : (numChunks s (encBody t s np aad pt ++ junk).length - 1) * s <
      (encBody t s np aad pt ++ junk).length :=
    numChunks_pred_mul_lt s _ hs hB2
  have hle : (encBody t s np aad pt ++ junk).length ≤
      numChunks s (encBody t s np aad pt ++ junk).length * s :=
    le_numChunks_mul s _ hs
  have hnmul : numChunks s (encBody t s np aad pt ++ junk).length * s =
      (numChunks s (encBody t s np aad pt ++ junk).length - 1) * s + s := by
    conv_lhs => rw [show numChunks s (encBody t s np aad pt ++ junk).length =
      (numChunks s (encBody t s np aad pt ++ junk).length - 1) + 1 by omega]
    rw [Nat.succ_mul]
  apply decBody_eq_none t s np aad _
    (numChunks s (encBody t s np aad pt ++ junk).length - 1) (by omega)
  have hchunk : chunkAt s (encBody t s np aad pt ++ junk)
      (numChunks s (encBody t s np aad pt ++ junk).length - 1) =
      (encBody t s np aad pt ++ junk).drop
        ((numChunks s (encBody t s np aad pt ++ junk).length - 1) * s) := by
    unfold chunkAt
    apply List.take_of_length_le
    rw [List.length_drop]
    omega
  rw [hchunk]
  have hclen : ((encBody t s np aad pt ++ junk).drop
      ((numChunks s (encBody t s np aad pt ++ junk).length - 1) * s)).length
      = (encBody t s np aad pt ++ junk).length -
        (numChunks s (encBody t s np aad pt ++ junk).length - 1) * s := by
    rw [List.length_drop]
  have hlast : ((encBody t s np aad pt ++ junk).drop
      ((numChunks s (encBody t s np aad pt ++ junk).length - 1) * s)).getLast?
      = some xj := by
    rw [List.getLast?_drop, if_neg (by omega), List.getLast?_append, hxj]
    rfl
  unfold openSeg
  by_cases hct : ((encBody t s np aad pt ++ junk).drop
      ((numChunks s (encBody t s np aad pt ++ junk).length - 1) * s)).length
      < t
  · rw [if_pos hct]
  · rw [if_neg hct]
    rw [if_neg]
    intro heq
    have hdl := congrArg List.getLast? heq
    rw [List.getLast?_drop, if_neg (by omega), hlast,
      List.getLast?_replicate, if_neg (by omega)] at hdl
    simp only [Option.some.injEq] at hdl
    have := tagVal_ge_256 np
      (numChunks s (encBody t s np aad pt ++ junk).length - 1)
      (numChunks s (encBody t s np aad pt ++ junk).length - 1 + 1 ==
        numChunks s (encBody t s np aad pt ++ junk).length) aad
      (((encBody t s np aad pt ++ junk).drop
        ((numChunks s (encBody t s np aad pt ++ junk).length - 1) * s)).take
        (((encBody t s np aad pt ++ junk).drop
          ((numChunks s (encBody t s np aad pt ++ junk).length - 1) * s)).length
          - t))
    omega

theorem drop_append_left_len {A C : Bytes} {n : Nat} (h : A.length = n) :
    (A ++ C).drop n = C := by
  rw [← h, List.drop_left]

theorem stream_delete (t s : Nat) (np aad pt : Bytes) (ht : 0 < t)
    (hts : t < s) (j : Nat) (hj : j < numChunks (s - t) pt.length) :
    decryptStream t s np.length
      (np ++ ((encBody t s np aad pt).take (j * s) ++
        (encBody t s np aad pt).drop ((j + 1) * s))) aad = none := by
  have hs : 0 < s := by omega
  obtain ⟨hn, hchunk⟩ := enc_chunks t s np aad pt ht hts
  have hB1 := encBody_len_pos t s np aad pt ht hts
  have hle : (encBody t s np aad pt).length ≤
      numChunks (s - t) pt.length * s := by
    rw [← hn]
    exact le_numChunks_mul s _ hs
  have hBgt : (numChunks (s - t) pt.length - 1) * s <
      (encBody t s np aad pt).length := by
    rw [← hn]
    exact numChunks_pred_mul_lt s _ hs hB1
  by_cases hjlast : j + 1 = numChunks (s - t) pt.length
  · -- deleting the final segment is the same stream as truncating at its
    -- boundary
    have hdrop : (encBody t s np aad pt).drop ((j + 1) * s) = [] := by
      apply List.drop_eq_nil_of_le
      rw [hjlast]
      exact hle
    rw [hdrop, List.append_nil]
    have htr := stream_truncate t s np aad pt ht hts j hj
    rw [show encryptStream t s np aad pt =
      np ++ encBody t s np aad pt from rfl, List.take_append] at htr
    exact htr
  · have hjk : j + 1 < numChunks (s - t) pt.length := by omega
    have hmul1 : j * s ≤ (numChunks (s - t) pt.length - 1) * s :=
      Nat.mul_le_mul_right s (by omega)
    have hmul2 : (j + 1) * s ≤ (numChunks (s - t) pt.length - 1) * s :=
      Nat.mul_le_mul_right s (by omega)
    have hmul3 : (j + 1) * s = j * s + s := by rw [Nat.succ_mul]
    have htlen : ((encBody t s np aad pt).take (j * s)).length = j * s := by
      rw [List.length_take]
      omega
    have hdlen : ((encBody t s np aad pt).drop ((j + 1) * s)).length =
        (encBody t s np aad pt).length - (j + 1) * s := by
      rw [List.length_drop]
    rw [decryptStream_append]
    have hB2 : ((encBody t s np aad pt).take (j * s) ++
        (encBody t s np aad pt).drop ((j + 1) * s)).length =
        (encBody t s np aad pt).length - s := by
      rw [List.length_append, htlen, hdlen]
      omega
    have hnum : j + 1 ≤ numChunks s ((encBody t s np aad pt).take (j * s) ++
        (encBody t s np aad pt).drop ((j + 1) * s)).length := by
      rw [hB2]
      rw [numChunks_eq s _ hs (by omega)]
      have : j ≤ ((encBody t s np aad pt).length - s - 1) / s := by
        rw [Nat.le_div_iff_mul_le hs]
        omega
      omega
    apply decBody_eq_none t s np aad _ j (by omega)
    have hcheq : chunkAt s ((encBody t s np aad pt).take (j * s) ++
        (encBody t s np aad pt).drop ((j + 1) * s)) j =
        chunkAt s (encBody t s np aad pt) (j + 1) := by
      unfold chunkAt
      congr 1
      exact drop_append_left_len htlen
    rw [hcheq, hchunk (j + 1) hjk, openSeg_sealSeg t ht, if_neg]
    intro hcontra
    omega

theorem take_append_left_len {A C : Bytes} {n : Nat} (h : A.length = n) :
    (A ++ C).take n = A := by
  rw [← h, List.take_left]

theorem drop_append_right_len {A C : Bytes} {n : Nat} (h : A.length ≤ n) :
    (A ++ C).drop n = C.drop (n - A.length) := by
  have h2 : n = A.length + (n - A.length) := by omega
  conv_lhs => rw [h2]
  rw [List.drop_append]

theorem openSeg_double_seal (t : Nat) (ht : 0 < t) (np : Bytes) (k2 : Nat)
    (l2 : Bool) (aad p : Bytes) (i : Nat) (l : Bool) :
    openSeg t np i l aad
      (sealSeg t np k2 l2 aad p ++ sealSeg t np k2 l2 aad p) = none := by
  have hDD : sealSeg t np k2 l2 aad p ++ sealSeg t np k2 l2 aad p =
      (p ++ (List.replicate t (tagVal np k2 l2 aad p) ++ p)) ++
        List.replicate t (tagVal np k2 l2 aad p) := by
    simp [sealSeg, List.append_assoc]
  have hlen : (sealSeg t np k2 l2 aad p ++ sealSeg t np k2 l2 aad p).length =
      2 * (p.length + t) := by
    rw [List.length_append, sealSeg_length]
    omega
  have hElen : (p ++ (List.replicate t (tagVal np k2 l2 aad p) ++ p)).length =
      2 * (p.length + t) - t := by
    simp only [List.length_append, List.length_replicate]
    omega
  unfold openSeg
  rw [if_neg (by omega), hlen]
  rw [hDD, take_append_left_len (by rw [hElen]), drop_append_left_len hElen]
  rw [if_neg]
  intro heq
  rw [List.replicate_inj] at heq
  rcases heq.2 with h0 | hv
  · omega
  · obtain ⟨-, -, -, -, e5⟩ := tagVal_injective hv
    have := congrArg List.length e5
    simp only [List.length_append, List.length_replicate] at this
    omega


theorem stream_duplicate (t s : Nat) (np aad pt : Bytes) (ht : 0 < t)
    (hts : t < s) (j : Nat) (hj : j < numChunks (s - t) pt.length) :
    decryptStream t s np.length
      (np ++ ((encBody t s np aad pt).take ((j + 1) * s) ++
        (encBody t s np aad pt).drop (j * s))) aad = none := by
  have hs : 0 < s := by omega
  obtain ⟨hn, hchunk⟩ := enc_chunks t s np aad pt ht hts
  have hB1 := encBody_len_pos t s np aad pt ht hts
  rw [decryptStream_append]
  set K := numChunks (s - t) pt.length with hK
  set body := encBody t s np aad pt with hbody
  have hkpos : 0 < K := numChunks_pos _ _
  have hle : body.length ≤ K * s := by
    rw [← hn]
    exact le_numChunks_mul s _ hs
  have hBgt : (K - 1) * s < body.length := by
    rw [← hn]
    exact numChunks_pred_mul_lt s _ hs hB1
  have hnmul : K * s = (K - 1) * s + s := by
    conv_lhs => rw [show K = (K - 1) + 1 by omega]
    rw [Nat.succ_mul]
  by_cases hjlast : j + 1 = K
  · -- duplicated the final segment
    have hjeq : j = K - 1 := by omega
    subst hjeq
    rw [show K - 1 + 1 = K from by omega]
    have hcd : chunkAt s body (K - 1) = body.drop ((K - 1) * s) := by
      unfold chunkAt
      apply List.take_of_length_le
      rw [List.length_drop]
      omega
    have hflag : (K - 1 + 1 == K) = true := by
      rw [show K - 1 + 1 = K from by omega]
      simp
    have hD := hchunk (K - 1) (by omega)
    rw [hflag, hcd] at hD
    have hpl := congrArg List.length hD
    rw [List.length_drop, sealSeg_length] at hpl
    have htkb : body.take (K * s) = body := List.take_of_length_le hle
    rw [htkb, hD]
    generalize hgen : chunkAt (s - t) pt (K - 1) = pseg at hD hpl ⊢
    -- body ends with the sealed final segment
    have hsplit : body = body.take ((K - 1) * s) ++
        sealSeg t np (K - 1) true aad pseg := by
      rw [← hD]
      exact (List.take_append_drop _ _).symm
    have htk1 : (body.take ((K - 1) * s)).length = (K - 1) * s := by
      rw [List.length_take]
      omega
    by_cases hr_s : body.length - (K - 1) * s = s
    · -- final segment full: the copy is verified at the fresh index K
      have hB2 : (body ++ sealSeg t np (K - 1) true aad pseg).length =
          K * s + s := by
        rw [List.length_append, sealSeg_length]
        omega
      have hk1mul : (K + 1) * s = K * s + s := by rw [Nat.succ_mul]
      have hnum : numChunks s
          (body ++ sealSeg t np (K - 1) true aad pseg).length = K + 1 := by
        rw [hB2]
        apply numChunks_eq_of s _ _ hs (by omega) (by omega)
        · simp only [Nat.add_sub_cancel]
          omega
        · rw [hk1mul]
      apply decBody_eq_none t s np aad _ K (by rw [hnum]; omega)
      have hcheq : chunkAt s (body ++ sealSeg t np (K - 1) true aad pseg) K =
          sealSeg t np (K - 1) true aad pseg := by
        rw [show chunkAt s (body ++ sealSeg t np (K - 1) true aad pseg) K =
          ((body ++ sealSeg t np (K - 1) true aad pseg).drop (K * s)).take s
          from rfl]
        rw [drop_append_left_len (by omega)]
        apply List.take_of_length_le
        rw [sealSeg_length]
        omega
      rw [hcheq, openSeg_sealSeg t ht, if_neg]
      intro hcontra
      omega
    · -- final segment partial
      have hrlt : body.length - (K - 1) * s < s := by omega
      by_cases h2r : 2 * (pseg.length + t) ≤ s
      · -- both copies land in one ciphertext segment
        have hB2 : (body ++ sealSeg t np (K - 1) true aad pseg).length =
            (K - 1) * s + 2 * (pseg.length + t) := by
          rw [List.length_append, sealSeg_length]
          omega
        have hnum : numChunks s
            (body ++ sealSeg t np (K - 1) true aad pseg).length = K := by
          rw [hB2]
          apply numChunks_eq_of s _ _ hs (by omega) (by omega)
          · omega
          · omega
        apply decBody_eq_none t s np aad _ (K - 1) (by rw [hnum]; omega)
        have hcheq : chunkAt s (body ++ sealSeg t np (K - 1) true aad pseg)
            (K - 1) = sealSeg t np (K - 1) true aad pseg ++
              sealSeg t np (K - 1) true aad pseg := by
          rw [show chunkAt s (body ++ sealSeg t np (K - 1) true aad pseg)
            (K - 1) = ((body ++ sealSeg t np (K - 1) true aad pseg).drop
              ((K - 1) * s)).take s from rfl]
          rw [List.drop_append_of_le_length (by omega), hD]
          apply List.take_of_length_le
          rw [List.length_append, sealSeg_length]
          omega
        rw [hcheq, hnum]
        exact openSeg_double_seal t ht np _ true aad _ _ _
      · -- the copies straddle a boundary: the last ciphertext segment ends
        -- in the first copy's tag, bound to index K-1 but verified at K
        have h2r' : s < 2 * (pseg.length + t) := by omega
        have hk1mul : (K + 1) * s = K * s + s := by rw [Nat.succ_mul]
        have hB2 : (body ++ sealSeg t np (K - 1) true aad pseg).length =
            (K - 1) * s + 2 * (pseg.length + t) := by
          rw [List.length_append, sealSeg_length]
          omega
        have hnum : numChunks s
            (body ++ sealSeg t np (K - 1) true aad pseg).length = K + 1 := by
          rw [hB2]
          apply numChunks_eq_of s _ _ hs (by omega) (by omega)
          · simp only [Nat.add_sub_cancel]
            omega
          · rw [hk1mul]
            omega
        apply decBody_eq_none t s np aad _ K (by rw [hnum]; omega)
        have hcheq : chunkAt s (body ++ sealSeg t np (K - 1) true aad pseg) K
            = (sealSeg t np (K - 1) true aad pseg).drop
              (K * s - body.length) := by
          rw [show chunkAt s (body ++ sealSeg t np (K - 1) true aad pseg) K =
            ((body ++ sealSeg t np (K - 1) true aad pseg).drop (K * s)).take s
            from rfl]
          rw [drop_append_right_len (by omega)]
          apply List.take_of_length_le
          rw [List.length_drop, sealSeg_length]
          omega
        rw [hcheq]
        have hdlen : ((sealSeg t np (K - 1) true aad pseg).drop
            (K * s - body.length)).length = 2 * (pseg.length + t) - s := by
          rw [List.length_drop, sealSeg_length]
          omega
        unfold openSeg
        by_cases hct : ((sealSeg t np (K - 1) true aad pseg).drop
            (K * s - body.length)).length < t
        · rw [if_pos hct]
        · rw [if_neg hct]
          rw [if_neg]
          intro heq
          have hdl := congrArg List.getLast? heq
          have hlastseal : (sealSeg t np (K - 1) true aad pseg).getLast? =
              some (tagVal np (K - 1) true aad pseg) := by
            unfold sealSeg
            rw [List.getLast?_append, List.getLast?_replicate,
              if_neg (by omega)]
            rfl
          rw [List.getLast?_drop, if_neg (by omega),
            List.getLast?_drop, if_neg (by rw [sealSeg_length]; omega),
            hlastseal, List.getLast?_replicate, if_neg (by omega)] at hdl
          simp only [Option.some.injEq] at hdl
          obtain ⟨-, e2, -, -, -⟩ := tagVal_injective hdl
          omega
  · -- duplicated a non-final segment: everything after it shifts by one
    have hjk : j + 1 < K := by omega
    have hmul2 : (j + 1) * s ≤ (K - 1) * s :=
      Nat.mul_le_mul_right s (by omega)
    have hmul3 : (j + 1) * s = j * s + s := by rw [Nat.succ_mul]
    have htlen : (body.take ((j + 1) * s)).length = (j + 1) * s := by
      rw [List.length_take]
      omega
    have hB2 : (body.take ((j + 1) * s) ++ body.drop (j * s)).length =
        body.length + s := by
      rw [List.length_append, htlen, List.length_drop]
      omega
    have hnum : j + 2 ≤ numChunks s
        (body.take ((j + 1) * s) ++ body.drop (j * s)).length := by
      rw [hB2, numChunks_eq s _ hs (by omega)]
      have hq : j + 1 ≤ (body.length + s - 1) / s := by
        rw [Nat.le_div_iff_mul_le hs]
        omega
      omega
    apply decBody_eq_none t s np aad _ (j + 1) (by omega)
    have hcheq : chunkAt s (body.take ((j + 1) * s) ++ body.drop (j * s))
        (j + 1) = chunkAt s body j := by
      rw [show chunkAt s (body.take ((j + 1) * s) ++ body.drop (j * s))
        (j + 1) = ((body.take ((j + 1) * s) ++ body.drop (j * s)).drop
          ((j + 1) * s)).take s from rfl]
      rw [drop_append_left_len htlen]
      rfl
    rw [hcheq, hchunk j hj, openSeg_sealSeg t ht, if_neg]
    intro hcontra
    omega

/-- C5 -- For every stream encrypted by the segmented codec with
segmentSize 256 (any tag size 0 < t < 256, any header/nonce prefix,
associated data and plaintext): changing any single byte of the ciphertext
to a different value makes decryption fail; truncating at any segment
boundary fails; appending one byte or 256 extra bytes fails; deleting or
duplicating any whole segment fails; and decrypting with any different
associated data fails. -/
theorem C5_stream_tamper_detection (t : Nat) (np aad pt : Bytes)
    (ht : 0 < t) (hts : t < 256) :
    (∀ i b, (encryptStream t 256 np aad pt).set i b ≠
        encryptStream t 256 np aad pt →
      decryptStream t 256 np.length
        ((encryptStream t 256 np aad pt).set i b) aad = none) ∧
    (∀ j, j < numChunks (256 - t) pt.length →
      decryptStream t 256 np.length
        ((encryptStream t 256 np aad pt).take (np.length + j * 256)) aad
        = none) ∧
    (∀ b, b < 256 →
      decryptStream t 256 np.length
        (encryptStream t 256 np aad pt ++ [b]) aad = none) ∧
    (∀ junk : Bytes, junk.length = 256 → (∀ x ∈ junk, x < 256) →
      decryptStream t 256 np.length
        (encryptStream t 256 np aad pt ++ junk) aad = none) ∧
    (∀ j, j < numChunks (256 - t) pt.length →
      decryptStream t 256 np.length
        ((encryptStream t 256 np aad pt).take (np.length + j * 256) ++
          (encryptStream t 256 np aad pt).drop (np.length + (j + 1) * 256))
        aad = none) ∧
    (∀ j, j < numChunks (256 - t) pt.length →
      decryptStream t 256 np.length
        ((encryptStream t 256 np aad pt).take (np.length + (j + 1) * 256) ++
          (encryptStream t 256 np aad pt).drop (np.length + j * 256)) aad
        = none) ∧
    (∀ aad2, aad2 ≠ aad →
      decryptStream t 256 np.length (encryptStream t 256 np aad pt) aad2
        = none) := by
  refine ⟨?_, ?_, ?_, ?_, ?_, ?_, ?_⟩
  · intro i b hset
    exact stream_flip t 256 np aad pt ht hts i b hset
  · intro j hj
    exact stream_truncate t 256 np aad pt ht hts j hj
  · intro b hb
    apply stream_append t 256 np aad pt [b] ht hts (by simp)
    intro x hx
    simp only [List.mem_singleton] at hx
    omega
  · intro junk hjlen hjb
    apply stream_append t 256 np aad pt junk ht hts ?_ hjb
    intro hnil
    rw [hnil] at hjlen
    simp at hjlen
  · intro j hj
    have h := stream_delete t 256 np aad pt ht hts j hj
    rw [show encryptStream t 256 np aad pt =
      np ++ encBody t 256 np aad pt from rfl, List.take_append,
      List.drop_append, List.append_assoc]
    exact h
  · intro j hj
    have h := stream_duplicate t 256 np aad pt ht hts j hj
    rw [show encryptStream t 256 np aad pt =
      np ++ encBody t 256 np aad pt from rfl, List.take_append,
      List.drop_append, List.append_assoc]
    exact h
  · intro aad2 hne
    exact stream_wrong_aad t 256 np aad pt ht hts aad2 hne

/-- Witness for C5: flipping the first body byte of a concrete two-byte
stream makes decryption fail. -/
theorem C5_stream_tamper_detection_witness :
    decryptStream 1 256 1 ((encryptStream 1 256 [0] [] [1, 2]).set 1 7) []
      = none := by
  have h := (C5_stream_tamper_detection 1 [0] [] [1, 2] (by decide)
    (by decide)).1 1 7 (by decide)
  simpa using h

/-- C6 -- Encrypting a zero-length plaintext produces a valid stream of
exactly one segment: the header (the nonce prefix, emitted once, before the
segment) followed by a single final segment sealing the empty chunk with the
last-segment flag; decrypting that stream returns the zero-length
plaintext. -/
theorem C6_stream_empty_plaintext (t s : Nat) (np aad : Bytes) (ht : 0 < t)
    (hts : t < s) :
    numChunks (s - t) ([] : Bytes).length = 1 ∧
    encryptStream t s np aad [] = np ++ sealSeg t np 0 true aad [] ∧
    decryptStream t s np.length (encryptStream t s np aad []) aad
      = some [] := by
  have hone : numChunks (s - t) ([] : Bytes).length = 1 := by
    simp only [List.length_nil]
    exact numChunks_zero _
  have henc : encryptStream t s np aad [] =
      np ++ sealSeg t np 0 true aad [] := by
    unfold encryptStream encBody
    rw [List.length_nil, numChunks_zero,
      show List.range 1 = [0] from rfl]
    simp only [List.map_cons, List.map_nil, List.flatten_cons,
      List.flatten_nil, List.append_nil]
    simp [chunkAt, sealSeg]
  refine ⟨hone, henc, ?_⟩
  rw [henc, decryptStream_append]
  have hslen : (sealSeg t np 0 true aad []).length = t := by
    rw [sealSeg_length]
    simp
  have hnum : numChunks s (sealSeg t np 0 true aad []).length = 1 := by
    rw [hslen]
    exact numChunks_eq_of s t 1 (by omega) ht Nat.one_pos (by simpa using ht)
      (by omega)
  have hres := decBody_eq_some t s np aad (sealSeg t np 0 true aad [])
    (fun _ => []) ?_
  · rw [hres, hnum]
    simp
  · intro i hi
    rw [hnum] at hi
    have hi0 : i = 0 := by omega
    subst hi0
    have hchunk0 : chunkAt s (sealSeg t np 0 true aad []) 0 =
        sealSeg t np 0 true aad [] := by
      unfold chunkAt
      rw [Nat.zero_mul, List.drop_zero]
      apply List.take_of_length_le
      omega
    rw [hchunk0, hnum, openSeg_sealSeg t ht, if_pos]
    exact ⟨rfl, rfl, by decide, rfl⟩

/-- Witness for C6: a concrete empty-plaintext stream round-trips. -/
theorem C6_stream_empty_plaintext_witness :
    decryptStream 1 3 1 (encryptStream 1 3 [7] [5] []) [5] = some [] := by
  have h := (C6_stream_empty_plaintext 1 3 [7] [5] (by decide) (by decide)).2.2
  simpa using h
